import Mathlib

/-!
Verification of jupyterlab-unfold's tree-fetch, open-state, virtualization and
drag-and-drop components.

JavaScript strings are embedded as `List Char` (`JStr`): string concatenation is
list append, `startsWith` is `isPrefixOf`, `split('/')` is `List.splitOn '/'`,
and the empty string (the only falsy string) is `[]`.  JavaScript objects used
as string-keyed records (`OpenStateMap`) are embedded as insertion-ordered
association lists: `Object.entries` enumerates the list, property read is
first-occurrence lookup defaulting to `false` for an absent key, and property
assignment overwrites the first occurrence in place or appends a new key at the
end, exactly as JavaScript insertion-order semantics prescribe for these keys.
JavaScript numbers are embedded as `ℚ` (pixel geometry) and `ℤ`/`ℕ` (row
counts and indices); `Math.floor`/`Math.ceil` are `Int.floor`/`Int.ceil`.
-/

namespace Unfold

/-- A JavaScript string, embedded as its list of characters. -/
abbrev JStr := List Char

/-- Convenience conversion from Lean string literals to the `JStr` embedding. -/
def js (s : String) : JStr := s.toList

/-- `Contents.IModel.type`, restricted to the two variants the tree logic
distinguishes (`entry.type === 'directory'` versus everything else). -/
inductive EntryType where
  | directory
  | file
deriving DecidableEq, Repr

/-- The parts of a `Contents.IModel` tree entry the fetch and windowing layers
read: `path`, `name` and `type`. -/
structure Entry where
  path : JStr
  name : JStr
  type : EntryType
deriving DecidableEq, Repr

/-- `OpenStateMap = Record<string, boolean>` from `src/model/openState.ts`,
embedded as an insertion-ordered association list. -/
abbrev OpenStateMap := List (JStr × Bool)

/-- First-occurrence key lookup in the association-list record model. -/
def osLookup (m : OpenStateMap) (k : JStr) : Option Bool :=
  match m with
  | [] => none
  | (k', v') :: rest => if k' = k then some v' else osLookup rest k

/-- Reading `openState[path]` coerced to boolean (`!!openState[path]`):
first-occurrence lookup, absent key meaning `false`. -/
def osGet (m : OpenStateMap) (k : JStr) : Bool :=
  (osLookup m k).getD false

/-- JavaScript property assignment `openState[k] = v`: overwrite the first
occurrence of `k` in place, or append `(k, v)` when `k` is absent. -/
def osSet (m : OpenStateMap) (k : JStr) (v : Bool) : OpenStateMap :=
  match m with
  | [] => [(k, v)]
  | (k', v') :: rest =>
    if k' = k then (k, v) :: rest else (k', v') :: osSet rest k v

/-- `normalizePath` from `src/model/openState.ts`: `undefined`/empty input maps
to `undefined`, otherwise exactly one leading `/` is stripped
(`path.replace(/^\//, '')`). -/
def normalizePath (path : Option JStr) : Option JStr :=
  match path with
  | none => none
  | some [] => none
  | some p => some (if p.head? = some '/' then p.tail else p)

/-- `Set.prototype.add` on a JavaScript `Set` kept as its insertion-ordered
element list: append if not already present. -/
def setAdd (l : List JStr) (x : JStr) : List JStr :=
  if x ∈ l then l else l ++ [x]

/-- The reveal-prefix loop of `buildExpandedPaths`: walk the `/`-separated
parts, extending the running partial path (`partialPath ? partialPath + '/' +
part : part`) and adding each partial path to the set. -/
def addRevealParts (acc : List JStr) (runningPath : JStr) (parts : List JStr) :
    List JStr :=
  match parts with
  | [] => acc
  | part :: rest =>
    let nextPath := if runningPath = [] then part else runningPath ++ '/' :: part
    addRevealParts (setAdd acc nextPath) nextPath rest

/-- The `Object.entries(openState).forEach` body of `buildExpandedPaths`: add
the key to the set when its stored flag is `true`. -/
def setAddOpen (acc : List JStr) (kv : JStr × Bool) : List JStr :=
  if kv.2 then setAdd acc kv.1 else acc

/-- `buildExpandedPaths` from `src/model/openState.ts`: a set seeded with
`rootPath`, extended with every key of `openState` holding `true`, extended
with the partial paths of the normalized `pathToUpdate` when that is truthy,
returned as a list with falsy (empty) strings filtered out
(`Array.from(expanded).filter(Boolean)`). -/
def buildExpandedPaths (openState : OpenStateMap) (rootPath : JStr)
    (pathToUpdate : Option JStr) : List JStr :=
  let expanded := setAdd [] rootPath
  let expanded := openState.foldl setAddOpen expanded
  let expanded :=
    match normalizePath pathToUpdate with
    | none => expanded
    | some np =>
      if np = [] then expanded
      else addRevealParts expanded [] (np.splitOn '/')
  expanded.filter (fun s => s ≠ [])

/-- The loop body of `reconcileOpenStateFromItems`: a directory entry whose
path is not in the expanded set is explicitly marked collapsed; every other
entry leaves the map alone. -/
def reconStep (expandedPaths : List JStr) (st : OpenStateMap) (e : Entry) :
    OpenStateMap :=
  if e.type = EntryType.directory ∧ e.path ∉ expandedPaths then
    osSet st e.path false
  else st

/-- `reconcileOpenStateFromItems` from `src/model/openState.ts`, minus its
diagnostic elapsed-time return value: force `rootPath` open, then mark every
directory entry whose path is not in the expanded set as collapsed. -/
def reconcileOpenStateFromItems (openState : OpenStateMap) (items : List Entry)
    (expandedPaths : List JStr) (rootPath : JStr) : OpenStateMap :=
  items.foldl (reconStep expandedPaths) (osSet openState rootPath true)

/-- The paths `reconcileOpenStateFromItems` explicitly marks collapsed: the
directory entries of the item list outside the expanded set. -/
def reconFalseKeys (expandedPaths : List JStr) (items : List Entry) :
    List JStr :=
  (items.filter
    (fun e => e.type = EntryType.directory ∧ e.path ∉ expandedPaths)).map
    Entry.path

/-- `shouldDirectoryBeOpen` from `src/model/openState.ts`:
`!!(pathToUpdate && pathToUpdate.startsWith('/' + entryPath)) ||
!!openState[entryPath]`. -/
def shouldDirectoryBeOpen (openState : OpenStateMap) (entryPath : JStr)
    (pathToUpdate : Option JStr) : Bool :=
  (match pathToUpdate with
   | none => false
   | some ptu => ptu ≠ [] && List.isPrefixOf ('/' :: entryPath) ptu) ||
  osGet openState entryPath

end Unfold

namespace Unfold

/-- The constructor option record of `VirtualizationController`
(`ui-tests/scripts/create-benchmark-dataset.js`), with its documented
defaults. -/
structure VirtOptions where
  threshold : ℕ := 2500
  rowHeight : ℚ := 24
  overscanRows : ℕ := 80
  minRows : ℕ := 200

/-- The default-constructed `VirtualizationController` configuration. -/
def defaultVirtOptions : VirtOptions := {}

/-- `VirtualizationController.shouldVirtualize`: `itemCount >= threshold`. -/
def shouldVirtualize (o : VirtOptions) (itemCount : ℕ) : Bool :=
  o.threshold ≤ itemCount

/-- `VirtualizationController.computeVisibleRange`, as a pure function of the
item count and the container geometry (`clientHeight`, `scrollTop`); the
`_lastRange` memoization only reuses an equal value and is dropped. -/
def computeVisibleRange (o : VirtOptions) (totalItems : ℕ)
    (clientHeight scrollTop : ℚ) : ℤ × ℤ :=
  if totalItems = 0 then (0, 0)
  else
    let viewportHeight := max clientHeight o.rowHeight
    let visibleRows : ℤ := max (o.minRows : ℤ) ⌈viewportHeight / o.rowHeight⌉
    let st := max 0 scrollTop
    let maxFirstVisible : ℤ := max 0 ((totalItems : ℤ) - 1)
    let firstVisible := min maxFirstVisible ⌊st / o.rowHeight⌋
    let start := max 0 (firstVisible - (o.overscanRows : ℤ))
    let unclampedEnd :=
      min (totalItems : ℤ) (firstVisible + visibleRows + (o.overscanRows : ℤ))
    (start, max (start + 1) unclampedEnd)

/-- The `IVirtualizationWindow` record returned by `computeWindow`. -/
structure VirtualWindow where
  allItems : List Entry
  visibleItems : List Entry
  rangeStart : ℤ
  topPx : ℚ
  bottomPx : ℚ
  virtualized : Bool

/-- `VirtualizationController.computeWindow`, with the DOM node abstracted to
its `(clientHeight, scrollTop)` geometry; `allItems.slice(start, end)` is
drop-then-take on the clamped non-negative range. -/
def computeWindow (o : VirtOptions) (allItems : List Entry)
    (clientHeight scrollTop : ℚ) : VirtualWindow :=
  if ¬ shouldVirtualize o allItems.length then
    ⟨allItems, allItems, 0, 0, 0, false⟩
  else
    let r := computeVisibleRange o allItems.length clientHeight scrollTop
    let visibleItems := (allItems.drop r.1.toNat).take (r.2 - r.1).toNat
    ⟨allItems, visibleItems, r.1, (r.1 : ℚ) * o.rowHeight,
      ((max 0 ((allItems.length : ℤ) - r.2) : ℤ) : ℚ) * o.rowHeight, true⟩

/-- The spec's step-by-step formula for `computeVisibleRange` under the default
configuration (`rowHeight = 24`, `overscanRows = 80`, `minRows = 200`), exactly
as the claim states it. -/
def specVisibleRange (totalRows : ℕ) (viewportHeightPx scrollTopPx : ℚ) :
    ℤ × ℤ :=
  let visibleRowCount : ℤ := max 200 ⌈viewportHeightPx / 24⌉
  let firstVisible : ℤ := max 0 (min ((totalRows : ℤ) - 1) ⌊scrollTopPx / 24⌋)
  let start := max 0 (firstVisible - 80)
  (start,
    max (start + 1) (min (totalRows : ℤ) (firstVisible + visibleRowCount + 80)))

/-- The geometry a `DragDropController` reads from its container during edge
auto-scroll: the bounding rectangle's top and bottom, plus `scrollHeight` and
`clientHeight`. -/
structure ScrollGeom where
  rectTop : ℚ
  rectBottom : ℚ
  scrollHeight : ℚ
  clientHeight : ℚ

/-- `DragDropController.computeEdgeScrollVelocity`
(`src/listing/DragDropController.ts`), with `EDGE_SCROLL_ZONE_PX = 28` and
`EDGE_SCROLL_MAX_PX_PER_FRAME = 20`. -/
def computeEdgeScrollVelocity (g : ScrollGeom) (clientY : ℚ) : ℚ :=
  if clientY < g.rectTop ∨ g.rectBottom < clientY then 0
  else
    let topDistance := clientY - g.rectTop
    if topDistance < 28 then
      -(20 * (1 - topDistance / 28) * (1 - topDistance / 28))
    else
      let bottomDistance := g.rectBottom - clientY
      if bottomDistance < 28 then
        20 * (1 - bottomDistance / 28) * (1 - bottomDistance / 28)
      else 0

/-- One iteration of the `startEdgeAutoScroll` animation-frame loop acting on
`scrollTop`: advance by the edge velocity for the held pointer position,
clamped to `[0, scrollHeight - clientHeight]`.  The bounding rectangle does not
depend on the element's own `scrollTop`, so the velocity recomputed at the end
of the iteration equals the one used at its start. -/
def autoScrollStep (g : ScrollGeom) (clientY : ℚ) (scrollTop : ℚ) : ℚ :=
  max 0 (min (g.scrollHeight - g.clientHeight)
    (scrollTop + computeEdgeScrollVelocity g clientY))

end Unfold

namespace Unfold

/-- The callbacks `DragDropController` consults when evaluating spring-loading,
as they stand at one instant: `getItemByPath` (row lookup, `null` when the path
has no row) and `isPathOpen`. -/
structure DragEnv where
  getItemByPath : JStr → Option EntryType
  isPathOpen : JStr → Bool

/-- The spring-loading-relevant mutable state of a `DragDropController`:
`_activeDropTargetPath`, `_springHoverPath`, whether `_springHoverTimer` holds
a nonzero handle, the captured path of the armed (not yet fired, not yet
cancelled) native timeout if any, and `_springOpenedPaths`. -/
structure DragState where
  activeDropTargetPath : Option JStr
  springHoverPath : Option JStr
  timerHandleNonzero : Bool
  armedTimerPath : Option JStr
  springOpenedPaths : List JStr

/-- The state of a freshly constructed controller (also reached by
`cleanup()`). -/
def initDragState : DragState :=
  ⟨none, none, false, none, []⟩

/-- `cancelSpringHover`: null the tracked hover path and clear the stored
timer (which disarms the pending native timeout, whose handle always matches
`_springHoverTimer` while armed). -/
def cancelSpringHover (s : DragState) : DragState :=
  { s with springHoverPath := none, timerHandleNonzero := false,
           armedTimerPath := none }

/-- `updateSpringHover(path)`: decide `shouldSpring` (row exists, is a
directory, is not open, has not been spring-opened this session); cancel when
it fails; keep an armed timer for the same path; otherwise cancel and arm a
fresh 500 ms timeout capturing `path`. -/
def updateSpringHover (env : DragEnv) (s : DragState) (path : JStr) :
    DragState :=
  if ¬ (env.getItemByPath path = some EntryType.directory ∧
      env.isPathOpen path = false ∧ path ∉ s.springOpenedPaths) then
    cancelSpringHover s
  else if s.springHoverPath = some path ∧ s.timerHandleNonzero = true then s
  else
    { cancelSpringHover s with
        springHoverPath := some path,
        timerHandleNonzero := true,
        armedTimerPath := some path }

/-- `setDropTargetPath(path)`: no-op when unchanged; otherwise record the new
target (DOM class bookkeeping is not modelled), cancel the spring hover when
the target is gone, and re-evaluate spring hovering when it is a row. -/
def setDropTargetPath (env : DragEnv) (s : DragState) (path : Option JStr) :
    DragState :=
  if s.activeDropTargetPath = path then s
  else
    match path with
    | none => cancelSpringHover { s with activeDropTargetPath := path }
    | some p => updateSpringHover env { s with activeDropTargetPath := path } p

/-- The 500 ms timeout callback of `updateSpringHover` firing: the native timer
is consumed (the stored handle stays nonzero — the code never clears it here);
the callback re-checks that the captured path is still the hovered one and
still closed, and only then records it as spring-opened and invokes the
injected open-path callback.  Returns the new state together with the paths
passed to `openPath`. -/
def fireSpringTimer (env : DragEnv) (s : DragState) :
    DragState × List JStr :=
  match s.armedTimerPath with
  | none => (s, [])
  | some path =>
    match s.springHoverPath with
    | none => ({ s with armedTimerPath := none }, [])
    | some hoverPath =>
      if hoverPath ≠ path ∨ env.isPathOpen path = true then
        ({ s with armedTimerPath := none }, [])
      else
        ({ s with
            armedTimerPath := none,
            springOpenedPaths := path :: s.springOpenedPaths }, [path])

/-- `cleanup()`: unconditional reset of the drag-session state. -/
def dragCleanup (_s : DragState) : DragState :=
  initDragState

/-- The externally visible events that drive the spring-loading state within
one controller: a drag-over resolving to a drop-target row (or none), the
armed timeout elapsing (≥ 500 ms of unchanged hover), and `cleanup()`.  Each
event carries the callback environment as of that instant. -/
inductive DragEvent where
  | dragOver (env : DragEnv) (target : Option JStr)
  | timerElapsed (env : DragEnv)
  | cleanupEvent

/-- One event step of the controller; returns the new state and the list of
open-path callback invocations the step performed. -/
def dragStep (s : DragState) : DragEvent → DragState × List JStr
  | DragEvent.dragOver env target => (setDropTargetPath env s target, [])
  | DragEvent.timerElapsed env => fireSpringTimer env s
  | DragEvent.cleanupEvent => (dragCleanup s, [])

/-- Run a sequence of drag events, accumulating all open-path invocations. -/
def dragRun (s : DragState) : List DragEvent → DragState × List JStr
  | [] => (s, [])
  | e :: rest =>
    let (s', out) := dragStep s e
    let (s'', out') := dragRun s' rest
    (s'', out ++ out')

/-- Whether an event list stays within one drag session (contains no
`cleanup()`). -/
def cleanupFree (events : List DragEvent) : Prop :=
  ∀ e ∈ events, e ≠ DragEvent.cleanupEvent

end Unfold

namespace Unfold

/-- A fixture file-system node: a file, or a directory with its child nodes.
A fixture tree is the backing file system both strategies are run against. -/
inductive FsNode where
  | file (name : JStr)
  | dir (name : JStr) (children : List FsNode)

/-- The name of a fixture node. -/
def FsNode.name : FsNode → JStr
  | FsNode.file n => n
  | FsNode.dir n _ => n

/-- Whether a fixture node is a directory (`type === 'directory'`). -/
def FsNode.isDir : FsNode → Bool
  | FsNode.file _ => false
  | FsNode.dir _ _ => true

/-- The `Contents.IModel.type` of a fixture node. -/
def FsNode.entryType : FsNode → EntryType
  | FsNode.file _ => EntryType.file
  | FsNode.dir _ _ => EntryType.directory

/-- The root-relative path of a child named `name` inside the directory at
`parentPath`: JupyterLab paths are slash-joined, with no leading slash under
the `''` root. -/
def childPath (parentPath name : JStr) : JStr :=
  if parentPath = [] then name else parentPath ++ '/' :: name

/-- The `Contents.IModel` entry a directory listing produces for node `n`
sitting in the directory at `parentPath`. -/
def entryOf (parentPath : JStr) (n : FsNode) : Entry :=
  ⟨childPath parentPath n.name, n.name, n.entryType⟩

/-- `compareByName(a, b) < 0` (`src/unfold.ts`): strict case-sensitive
lexicographic comparison of JavaScript strings. -/
def lexLt : JStr → JStr → Bool
  | [], [] => false
  | [], _ :: _ => true
  | _ :: _, [] => false
  | a :: as, b :: bs => if a < b then true else if b < a then false else lexLt as bs

/-- The "sorts no later than" relation induced by `compareByName`:
`compareByName(a, b) <= 0`. -/
def nameLe (a b : FsNode) : Prop := lexLt b.name a.name = false

instance : DecidableRel nameLe := fun a b => by
  unfold nameLe; infer_instance

/-- `sortContents` (`src/unfold.ts`) lifted to fixture nodes, so the recursive
strategies can descend into sorted children: directories filtered first, files
second, each group sorted stably and ascending by `compareByName` (JavaScript's
`Array.prototype.sort` is stable; a stable insertion sort realizes it). -/
def sortNodes (ns : List FsNode) : List FsNode :=
  (ns.filter (fun n => n.isDir)).insertionSort nameLe ++
    (ns.filter (fun n => ¬ n.isDir)).insertionSort nameLe

/-- Total number of nodes in a forest: the permutation-invariant termination
measure for the traversals that re-sort child lists as they descend. -/
def sizeForest : List FsNode → ℕ
  | [] => 0
  | FsNode.file _ :: rest => 1 + sizeForest rest
  | FsNode.dir _ cs :: rest => 1 + sizeForest cs + sizeForest rest

theorem sizeForest_perm {l₁ l₂ : List FsNode} (h : l₁.Perm l₂) :
    sizeForest l₁ = sizeForest l₂ := by
  induction h with
  | nil => rfl
  | cons x _ ih => rcases x with n | ⟨n, cs⟩ <;> simp only [sizeForest, ih]
  | swap x y l => rcases x with n | ⟨n, cs⟩ <;> rcases y with m | ⟨m, ds⟩ <;>
      simp only [sizeForest] <;> omega
  | trans _ _ ih₁ ih₂ => omega

theorem sortNodes_perm (ns : List FsNode) : (sortNodes ns).Perm ns := by
  unfold sortNodes
  refine ((List.perm_insertionSort _ _).append (List.perm_insertionSort _ _)).trans ?_
  have := List.filter_append_perm (fun n : FsNode => n.isDir) ns
  simpa using this

theorem sizeForest_sortNodes (ns : List FsNode) :
    sizeForest (sortNodes ns) = sizeForest ns :=
  sizeForest_perm (sortNodes_perm ns)

/-- `fetchViaContentsRecursive` (`src/model/treeFetchStrategy.ts`), specialised
to a fixture tree: the `for` loop over the already-sorted listing of the
directory at `parentPath`.  Every listed entry is appended; a directory entry
is descended into when `shouldDirectoryBeOpen` holds — the recursive call
lists and sorts the child directory and marks it open on entry (`openState
[path] = true`), splicing the subtree immediately after the child — and is
otherwise explicitly marked collapsed. -/
def fallbackChildren (ptu : Option JStr) (parentPath : JStr)
    (nodes : List FsNode) (os : OpenStateMap) : List Entry × OpenStateMap :=
  match nodes with
  | [] => ([], os)
  | n :: rest =>
    let e := entryOf parentPath n
    match n with
    | FsNode.file _ =>
      let r := fallbackChildren ptu parentPath rest os
      (e :: r.1, r.2)
    | FsNode.dir _ children =>
      if shouldDirectoryBeOpen os e.path ptu then
        let sub := fallbackChildren ptu e.path (sortNodes children)
          (osSet os e.path true)
        let r := fallbackChildren ptu parentPath rest sub.2
        (e :: (sub.1 ++ r.1), r.2)
      else
        let r := fallbackChildren ptu parentPath rest (osSet os e.path false)
        (e :: r.1, r.2)
termination_by sizeForest nodes
decreasing_by
  all_goals simp only [sizeForest, sizeForest_sortNodes]
  all_goals omega

/-- `fetchViaContents` (`src/model/treeFetchStrategy.ts`) against a fixture
tree: list and sort the root's children, mark the root open, and run the
recursive loop. -/
def fetchViaContentsModel (tree : List FsNode) (rootPath : JStr)
    (ptu : Option JStr) (os : OpenStateMap) : List Entry × OpenStateMap :=
  fallbackChildren ptu rootPath (sortNodes tree) (osSet os rootPath true)

/-- Modelled from the spec: the external tree-listing service (its server-side
implementation is not part of this repository).  Per §4.2/§6 it returns the
canonical flattened depth-first pre-order listing for the requested
expanded-path set over the fixture tree — the immediate children of each
reachable expanded directory, in the same directories-first name order the
client uses, each expanded directory's subtree spliced directly after its
entry. -/
def serverListing (expanded : List JStr) (parentPath : JStr)
    (nodes : List FsNode) : List Entry :=
  match nodes with
  | [] => []
  | n :: rest =>
    let e := entryOf parentPath n
    match n with
    | FsNode.file _ => e :: serverListing expanded parentPath rest
    | FsNode.dir _ children =>
      if e.path ∈ expanded then
        e :: (serverListing expanded e.path (sortNodes children) ++
          serverListing expanded parentPath rest)
      else
        e :: serverListing expanded parentPath rest
termination_by sizeForest nodes
decreasing_by
  all_goals simp only [sizeForest, sizeForest_sortNodes]
  all_goals omega

/-- `fetchViaServer` (`src/model/treeFetchStrategy.ts`) with the round trip
answered by the canonical server model: build the expanded-path set, obtain the
flattened listing for it, and reconcile the open state against the returned
items. -/
def fetchViaServerModel (tree : List FsNode) (rootPath : JStr)
    (ptu : Option JStr) (os : OpenStateMap) : List Entry × OpenStateMap :=
  let expanded := buildExpandedPaths os rootPath ptu
  let items := serverListing expanded rootPath (sortNodes tree)
  (items, reconcileOpenStateFromItems os items expanded rootPath)

/-- All entry paths produced below `parentPath` for a forest, in depth-first
pre-order (every node's path, with a directory's subtree paths following its
own). -/
def forestPaths (parentPath : JStr) : List FsNode → List JStr
  | [] => []
  | FsNode.file nm :: rest =>
    childPath parentPath nm :: forestPaths parentPath rest
  | FsNode.dir nm cs :: rest =>
    childPath parentPath nm ::
      (forestPaths (childPath parentPath nm) cs ++ forestPaths parentPath rest)
termination_by ns => sizeForest ns
decreasing_by
  all_goals simp only [sizeForest]
  all_goals omega

/-- A usable file-system name: non-empty and containing no `/` separator. -/
def validName (s : JStr) : Bool :=
  decide (s ≠ []) && decide ('/' ∉ s)

/-- Sibling names in a listing are pairwise distinct. -/
def namesNodup (ns : List FsNode) : Bool :=
  decide ((ns.map FsNode.name).Nodup)

/-- Every node of the forest has a valid name, and every directory's children
have pairwise distinct names. -/
def wfEach : List FsNode → Bool
  | [] => true
  | FsNode.file nm :: rest => validName nm && wfEach rest
  | FsNode.dir nm cs :: rest =>
    validName nm && namesNodup cs && wfEach cs && wfEach rest
termination_by ns => sizeForest ns
decreasing_by
  all_goals simp only [sizeForest]
  all_goals omega

/-- A well-formed fixture tree: valid names and distinct sibling names
throughout, at the top level too. -/
def wfForest (ns : List FsNode) : Bool :=
  namesNodup ns && wfEach ns

end Unfold

namespace Unfold

/-- Which strategy produced a fetch result (`ITreeFetchResult.source`). -/
inductive FetchSource where
  | server
  | contents
deriving DecidableEq, Repr

/-- `ITreeFetchResult`, reduced to the fields the fallback contract concerns:
the returned items and the strategy tag. -/
structure FetchResult where
  items : List Entry
  source : FetchSource
deriving DecidableEq, Repr

/-- `fetchViaServer` with the network round trip (`fetchTreeListing`) given as
a fallible oracle from the request's `open_paths` and `update_path` to the
response items: a transport/protocol error surfaces before any open-state
mutation, and a successful response is reconciled and tagged `server`. -/
def fetchViaServerE
    (serverFetch : List JStr → Option JStr → Except Unit (List Entry))
    (rootPath : JStr) (ptu : Option JStr) (os : OpenStateMap) :
    Except Unit (FetchResult × OpenStateMap) :=
  let expanded := buildExpandedPaths os rootPath ptu
  match serverFetch expanded (normalizePath ptu) with
  | Except.error e => Except.error e
  | Except.ok items =>
    Except.ok (⟨items, FetchSource.server⟩,
      reconcileOpenStateFromItems os items expanded rootPath)

/-- `fetchViaContentsRecursive` with a fallible directory-listing collaborator:
`getDirectoryContents(path)` throws exactly when `fails path`; the loop is as
in `fallbackChildren`, with the child listing's failure propagating out of the
recursive call (after the mutations already performed). -/
def fallbackChildrenE (fails : JStr → Bool) (ptu : Option JStr)
    (parentPath : JStr) (nodes : List FsNode) (os : OpenStateMap) :
    Except Unit (List Entry × OpenStateMap) :=
  match nodes with
  | [] => Except.ok ([], os)
  | n :: rest =>
    let e := entryOf parentPath n
    match n with
    | FsNode.file _ =>
      match fallbackChildrenE fails ptu parentPath rest os with
      | Except.error er => Except.error er
      | Except.ok r => Except.ok (e :: r.1, r.2)
    | FsNode.dir _ children =>
      if shouldDirectoryBeOpen os e.path ptu then
        if fails e.path then Except.error ()
        else
          match fallbackChildrenE fails ptu e.path (sortNodes children)
            (osSet os e.path true) with
          | Except.error er => Except.error er
          | Except.ok sub =>
            match fallbackChildrenE fails ptu parentPath rest sub.2 with
            | Except.error er => Except.error er
            | Except.ok r => Except.ok (e :: (sub.1 ++ r.1), r.2)
      else
        match fallbackChildrenE fails ptu parentPath rest
          (osSet os e.path false) with
        | Except.error er => Except.error er
        | Except.ok r => Except.ok (e :: r.1, r.2)
termination_by sizeForest nodes
decreasing_by
  all_goals simp only [sizeForest, sizeForest_sortNodes]
  all_goals omega

/-- `fetchViaContents` with the fallible directory-listing collaborator,
tagging a successful traversal `contents`. -/
def fetchViaContentsE (fails : JStr → Bool) (tree : List FsNode)
    (rootPath : JStr) (ptu : Option JStr) (os : OpenStateMap) :
    Except Unit (FetchResult × OpenStateMap) :=
  if fails rootPath then Except.error ()
  else
    match fallbackChildrenE fails ptu rootPath (sortNodes tree)
      (osSet os rootPath true) with
    | Except.error er => Except.error er
    | Except.ok r => Except.ok (⟨r.1, FetchSource.contents⟩, r.2)

/-- `fetchWithFallback` (`src/model/treeFetchStrategy.ts`): try the server
strategy, and on any thrown error run the Contents-API fallback (the warning
log is not modelled). -/
def fetchWithFallbackE
    (serverFetch : List JStr → Option JStr → Except Unit (List Entry))
    (fails : JStr → Bool) (tree : List FsNode) (rootPath : JStr)
    (ptu : Option JStr) (os : OpenStateMap) :
    Except Unit (FetchResult × OpenStateMap) :=
  match fetchViaServerE serverFetch rootPath ptu os with
  | Except.ok r => Except.ok r
  | Except.error _ => fetchViaContentsE fails tree rootPath ptu os

end Unfold

namespace Unfold

theorem osLookup_osSet_self (m : OpenStateMap) (k : JStr) (v : Bool) :
    osLookup (osSet m k v) k = some v := by
  induction m with
  | nil => simp [osSet, osLookup]
  | cons kv rest ih =>
    obtain ⟨k', v'⟩ := kv
    by_cases h : k' = k
    · subst h; simp [osSet, osLookup]
    · simp [osSet, osLookup, h, ih]

theorem osLookup_osSet_ne (m : OpenStateMap) (k k' : JStr) (v : Bool)
    (h : k ≠ k') : osLookup (osSet m k v) k' = osLookup m k' := by
  induction m with
  | nil => simp [osSet, osLookup, h]
  | cons kv rest ih =>
    obtain ⟨k₀, v₀⟩ := kv
    by_cases h0 : k₀ = k
    · subst h0; simp [osSet, osLookup, h]
    · simp only [osSet, if_neg h0, osLookup]
      by_cases h1 : k₀ = k'
      · simp [h1]
      · simp [h1, ih]

theorem osGet_osSet_self (m : OpenStateMap) (k : JStr) (v : Bool) :
    osGet (osSet m k v) k = v := by
  simp [osGet, osLookup_osSet_self]

theorem osGet_osSet_ne (m : OpenStateMap) (k k' : JStr) (v : Bool)
    (h : k ≠ k') : osGet (osSet m k v) k' = osGet m k' := by
  simp [osGet, osLookup_osSet_ne m k k' v h]

theorem osSet_of_osLookup_eq (m : OpenStateMap) (k : JStr) (v : Bool)
    (h : osLookup m k = some v) : osSet m k v = m := by
  induction m with
  | nil => simp [osLookup] at h
  | cons kv rest ih =>
    obtain ⟨k₀, v₀⟩ := kv
    by_cases h0 : k₀ = k
    · subst h0
      simp only [osLookup, if_pos rfl] at h
      obtain rfl : v₀ = v := by simpa using h
      simp [osSet]
    · simp only [osLookup, if_neg h0] at h
      simp [osSet, if_neg h0, ih h]

theorem osLookup_of_osGet_true (m : OpenStateMap) (k : JStr)
    (h : osGet m k = true) : osLookup m k = some true := by
  unfold osGet at h
  cases hl : osLookup m k with
  | none => rw [hl] at h; simp at h
  | some b => rw [hl] at h; simp at h; simp [h]

theorem osSet_true_of_osGet_true (m : OpenStateMap) (k : JStr)
    (h : osGet m k = true) : osSet m k true = m :=
  osSet_of_osLookup_eq m k true (osLookup_of_osGet_true m k h)

end Unfold

namespace Unfold

theorem osLookup_eq_none_iff (m : OpenStateMap) (k : JStr) :
    osLookup m k = none ↔ k ∉ m.map Prod.fst := by
  induction m with
  | nil => simp [osLookup]
  | cons kv rest ih =>
    obtain ⟨k₀, v₀⟩ := kv
    by_cases h : k₀ = k
    · subst h; simp [osLookup]
    · simp [osLookup, h, ih, Ne.symm h]

theorem keys_osSet_of_mem (m : OpenStateMap) (k : JStr) (v : Bool)
    (h : k ∈ m.map Prod.fst) :
    (osSet m k v).map Prod.fst = m.map Prod.fst := by
  induction m with
  | nil => simp at h
  | cons kv rest ih =>
    obtain ⟨k₀, v₀⟩ := kv
    by_cases h0 : k₀ = k
    · subst h0; simp [osSet]
    · have hr : k ∈ rest.map Prod.fst := by
        rw [List.map_cons] at h
        rcases List.mem_cons.mp h with h1 | h1
        · exact absurd h1.symm h0
        · exact h1
      simp [osSet, h0, ih hr]

theorem keys_osSet_of_not_mem (m : OpenStateMap) (k : JStr) (v : Bool)
    (h : k ∉ m.map Prod.fst) :
    (osSet m k v).map Prod.fst = m.map Prod.fst ++ [k] := by
  induction m with
  | nil => simp [osSet]
  | cons kv rest ih =>
    obtain ⟨k₀, v₀⟩ := kv
    have h0 : k₀ ≠ k := by
      intro e; exact h (by simp [e])
    have h1 : k ∉ rest.map Prod.fst := fun hm => h (by simp [hm])
    simp [osSet, h0, ih h1]

theorem mem_keys_osSet_of_mem (m : OpenStateMap) (k k' : JStr) (v : Bool)
    (h : k' ∈ m.map Prod.fst) : k' ∈ (osSet m k v).map Prod.fst := by
  by_cases hm : k ∈ m.map Prod.fst
  · rw [keys_osSet_of_mem m k v hm]; exact h
  · rw [keys_osSet_of_not_mem m k v hm]; exact List.mem_append_left _ h

theorem nodup_keys_osSet (m : OpenStateMap) (k : JStr) (v : Bool)
    (h : (m.map Prod.fst).Nodup) : ((osSet m k v).map Prod.fst).Nodup := by
  by_cases hm : k ∈ m.map Prod.fst
  · rw [keys_osSet_of_mem m k v hm]; exact h
  · rw [keys_osSet_of_not_mem m k v hm]
    have hd : (m.map Prod.fst).Disjoint [k] := by
      intro a ha hb
      rw [List.mem_singleton] at hb
      subst hb
      exact hm ha
    exact List.Nodup.append h (List.nodup_singleton k) hd

theorem osMap_ext (m₁ m₂ : OpenStateMap)
    (hk : m₁.map Prod.fst = m₂.map Prod.fst)
    (hnd : (m₁.map Prod.fst).Nodup)
    (hl : ∀ k, osLookup m₁ k = osLookup m₂ k) : m₁ = m₂ := by
  induction m₁ generalizing m₂ with
  | nil =>
    cases m₂ with
    | nil => rfl
    | cons kv t => simp at hk
  | cons kv t₁ ih =>
    obtain ⟨k, v⟩ := kv
    cases m₂ with
    | nil => simp at hk
    | cons kv₂ t₂ =>
      obtain ⟨k₂, v₂⟩ := kv₂
      have hkk : k = k₂ ∧ t₁.map Prod.fst = t₂.map Prod.fst := by
        simpa using hk
      obtain ⟨rfl, htk⟩ := hkk
      have hv : v = v₂ := by
        have hvl := hl k
        simp only [osLookup, if_pos rfl] at hvl
        exact Option.some.inj hvl
      subst hv
      rw [List.map_cons] at hnd
      have hknt : k ∉ t₁.map Prod.fst := (List.nodup_cons.mp hnd).1
      have hknt₂ : k ∉ t₂.map Prod.fst := htk ▸ hknt
      have hndt : (t₁.map Prod.fst).Nodup := (List.nodup_cons.mp hnd).2
      have hlt : ∀ k', osLookup t₁ k' = osLookup t₂ k' := by
        intro k'
        by_cases hq : k' = k
        · subst hq
          rw [(osLookup_eq_none_iff t₁ k').mpr hknt,
            (osLookup_eq_none_iff t₂ k').mpr hknt₂]
        · have hlk := hl k'
          simp only [osLookup] at hlk
          rwa [if_neg (fun e => hq e.symm), if_neg (fun e => hq e.symm)] at hlk
      rw [ih t₂ htk hndt hlt]

theorem osLookup_foldl_reconStep (expandedPaths : List JStr)
    (items : List Entry) :
    ∀ (st : OpenStateMap) (k : JStr),
      osLookup (items.foldl (reconStep expandedPaths) st) k =
        if k ∈ reconFalseKeys expandedPaths items then some false
        else osLookup st k := by
  induction items with
  | nil => intro st k; simp [reconFalseKeys]
  | cons e rest ih =>
    intro st k
    by_cases hc : e.type = EntryType.directory ∧ e.path ∉ expandedPaths
    · have hstep : reconStep expandedPaths st e = osSet st e.path false := by
        simp [reconStep, hc]
      have hfk : reconFalseKeys expandedPaths (e :: rest) =
          e.path :: reconFalseKeys expandedPaths rest := by
        simp [reconFalseKeys, List.filter_cons, hc]
      rw [List.foldl_cons, hstep, ih, hfk]
      by_cases hk : k ∈ reconFalseKeys expandedPaths rest
      · simp [hk]
      · by_cases hke : k = e.path
        · subst hke; simp [hk, osLookup_osSet_self]
        · simp [hk, hke, osLookup_osSet_ne st e.path k false (fun e' => hke e'.symm)]
    · have hstep : reconStep expandedPaths st e = st := by
        simp only [reconStep, if_neg hc]
      have hfk : reconFalseKeys expandedPaths (e :: rest) =
          reconFalseKeys expandedPaths rest := by
        simp [reconFalseKeys, List.filter_cons, hc]
      rw [List.foldl_cons, hstep, ih, hfk]

theorem keys_foldl_reconStep (expandedPaths : List JStr) (items : List Entry) :
    ∀ (st : OpenStateMap),
      (∀ k ∈ reconFalseKeys expandedPaths items, k ∈ st.map Prod.fst) →
      (items.foldl (reconStep expandedPaths) st).map Prod.fst =
        st.map Prod.fst := by
  induction items with
  | nil => intro st _; simp
  | cons e rest ih =>
    intro st hmem
    by_cases hc : e.type = EntryType.directory ∧ e.path ∉ expandedPaths
    · have hstep : reconStep expandedPaths st e = osSet st e.path false := by
        simp [reconStep, hc]
      have hfk : reconFalseKeys expandedPaths (e :: rest) =
          e.path :: reconFalseKeys expandedPaths rest := by
        simp [reconFalseKeys, List.filter_cons, hc]
      rw [hfk] at hmem
      have he : e.path ∈ st.map Prod.fst := hmem e.path (by simp)
      have hkeys : (osSet st e.path false).map Prod.fst = st.map Prod.fst :=
        keys_osSet_of_mem st e.path false he
      rw [List.foldl_cons, hstep,
        ih (osSet st e.path false) (by
          intro k hk
          rw [hkeys]
          exact hmem k (by simp [hk])), hkeys]
    · have hstep : reconStep expandedPaths st e = st := by
        simp only [reconStep, if_neg hc]
      have hfk : reconFalseKeys expandedPaths (e :: rest) =
          reconFalseKeys expandedPaths rest := by
        simp [reconFalseKeys, List.filter_cons, hc]
      rw [hfk] at hmem
      rw [List.foldl_cons, hstep, ih st hmem]

theorem nodup_keys_foldl_reconStep (expandedPaths : List JStr)
    (items : List Entry) :
    ∀ (st : OpenStateMap), (st.map Prod.fst).Nodup →
      ((items.foldl (reconStep expandedPaths) st).map Prod.fst).Nodup := by
  induction items with
  | nil => intro st h; simpa using h
  | cons e rest ih =>
    intro st h
    rw [List.foldl_cons]
    refine ih _ ?_
    by_cases hc : e.type = EntryType.directory ∧ e.path ∉ expandedPaths
    · have hstep : reconStep expandedPaths st e = osSet st e.path false := by
        simp [reconStep, hc]
      rw [hstep]; exact nodup_keys_osSet st e.path false h
    · have hstep : reconStep expandedPaths st e = st := by
        simp only [reconStep, if_neg hc]
      rw [hstep]; exact h

end Unfold

namespace Unfold

theorem mem_keys_of_osLookup_ne_none (m : OpenStateMap) (k : JStr)
    (h : osLookup m k ≠ none) : k ∈ m.map Prod.fst := by
  by_contra hm
  exact h ((osLookup_eq_none_iff m k).mpr hm)

/-- Claim C9: `reconcileOpenStateFromItems` is idempotent — applying it twice
with the same items, expanded paths and root path leaves the open-state map in
the same final state as applying it once.  (The map is a JavaScript object, so
its keys are pairwise distinct.) -/
theorem reconcile_idempotent (os : OpenStateMap) (items : List Entry)
    (expandedPaths : List JStr) (rootPath : JStr)
    (hnd : (os.map Prod.fst).Nodup) :
    reconcileOpenStateFromItems
      (reconcileOpenStateFromItems os items expandedPaths rootPath)
      items expandedPaths rootPath =
      reconcileOpenStateFromItems os items expandedPaths rootPath := by
  set M := reconcileOpenStateFromItems os items expandedPaths rootPath with hMdef
  have hMl : ∀ k, osLookup M k =
      if k ∈ reconFalseKeys expandedPaths items then some false
      else osLookup (osSet os rootPath true) k := by
    intro k
    rw [hMdef, reconcileOpenStateFromItems]
    exact osLookup_foldl_reconStep expandedPaths items (osSet os rootPath true) k
  have hrootM : rootPath ∈ M.map Prod.fst := by
    apply mem_keys_of_osLookup_ne_none
    rw [hMl rootPath]
    by_cases hr : rootPath ∈ reconFalseKeys expandedPaths items
    · simp [hr]
    · simp [hr, osLookup_osSet_self]
  have hFKM : ∀ k ∈ reconFalseKeys expandedPaths items, k ∈ M.map Prod.fst := by
    intro k hk
    apply mem_keys_of_osLookup_ne_none
    rw [hMl k]
    simp [hk]
  have hkeysN : (osSet M rootPath true).map Prod.fst = M.map Prod.fst :=
    keys_osSet_of_mem M rootPath true hrootM
  have hkeys2 : (reconcileOpenStateFromItems M items expandedPaths
      rootPath).map Prod.fst = M.map Prod.fst := by
    rw [reconcileOpenStateFromItems,
      keys_foldl_reconStep expandedPaths items (osSet M rootPath true)
        (fun k hk => by rw [hkeysN]; exact hFKM k hk), hkeysN]
  have hndM : (M.map Prod.fst).Nodup := by
    rw [hMdef, reconcileOpenStateFromItems]
    exact nodup_keys_foldl_reconStep expandedPaths items (osSet os rootPath true)
      (nodup_keys_osSet os rootPath true hnd)
  have hlookup2 : ∀ k,
      osLookup (reconcileOpenStateFromItems M items expandedPaths rootPath) k =
        osLookup M k := by
    intro k
    rw [reconcileOpenStateFromItems,
      osLookup_foldl_reconStep expandedPaths items (osSet M rootPath true) k]
    by_cases hk : k ∈ reconFalseKeys expandedPaths items
    · rw [hMl k]
      simp [hk]
    · by_cases hkr : k = rootPath
      · subst hkr
        rw [osLookup_osSet_self, hMl k]
        simp [hk, osLookup_osSet_self]
      · rw [if_neg hk, osLookup_osSet_ne M rootPath k true (fun e => hkr e.symm)]
  exact osMap_ext _ M hkeys2 (hkeys2 ▸ hndM) hlookup2

/-- Witness for `reconcile_idempotent` at a concrete map, item list and root. -/
theorem reconcile_idempotent_witness :
    ([(js "a", true)].map Prod.fst).Nodup ∧
      reconcileOpenStateFromItems
        (reconcileOpenStateFromItems [(js "a", true)]
          [⟨js "d", js "d", EntryType.directory⟩] [js "x"] (js ""))
        [⟨js "d", js "d", EntryType.directory⟩] [js "x"] (js "") =
      reconcileOpenStateFromItems [(js "a", true)]
        [⟨js "d", js "d", EntryType.directory⟩] [js "x"] (js "") :=
  ⟨by decide, reconcile_idempotent [(js "a", true)]
    [⟨js "d", js "d", EntryType.directory⟩] [js "x"] (js "") (by decide)⟩

end Unfold

namespace Unfold

/-- Slash-joining of path segments (the inverse reading of `split('/')`). -/
def slashJoin : List JStr → JStr
  | [] => []
  | [p] => p
  | p :: q :: rest => p ++ '/' :: slashJoin (q :: rest)

/-- The spec's "every slash-separated prefix of the normalized `pathToReveal`":
the joins of every non-empty initial run of its `/`-separated segments. -/
def specRevealPrefixes (np : JStr) : List JStr :=
  (List.range (np.splitOn '/').length).map
    (fun k => slashJoin ((np.splitOn '/').take (k + 1)))

/-- The expanded-path set exactly as claim C2 describes it:
`{rootPath} ∪ {p : openState[p] = true} ∪ {slash-separated prefixes of the
normalized pathToReveal}`. -/
def specExpandedMem (openState : OpenStateMap) (rootPath : JStr)
    (pathToUpdate : Option JStr) (q : JStr) : Prop :=
  q = rootPath ∨ osGet openState q = true ∨
    ∃ np, normalizePath pathToUpdate = some np ∧ np ≠ [] ∧
      q ∈ specRevealPrefixes np

theorem mem_setAdd (l : List JStr) (x q : JStr) :
    q ∈ setAdd l x ↔ q ∈ l ∨ q = x := by
  unfold setAdd
  by_cases h : x ∈ l
  · simp only [if_pos h]
    constructor
    · exact Or.inl
    · rintro (hq | rfl)
      · exact hq
      · exact h
  · simp [if_neg h]

theorem setAddOpen_true (acc : List JStr) (k : JStr) :
    setAddOpen acc (k, true) = setAdd acc k := rfl

theorem setAddOpen_false (acc : List JStr) (k : JStr) :
    setAddOpen acc (k, false) = acc := rfl

theorem mem_foldl_setAdd_true (os : OpenStateMap) :
    ∀ (init : List JStr) (q : JStr),
      q ∈ os.foldl setAddOpen init ↔ q ∈ init ∨ (q, true) ∈ os := by
  induction os with
  | nil => intro init q; simp
  | cons kv rest ih =>
    intro init q
    obtain ⟨k, v⟩ := kv
    rw [List.foldl_cons]
    cases v with
    | false =>
      rw [setAddOpen_false, ih]
      simp
    | true =>
      rw [setAddOpen_true, ih, mem_setAdd]
      constructor
      · rintro ((hq | rfl) | hq)
        · exact Or.inl hq
        · exact Or.inr (by simp)
        · exact Or.inr (by simp [hq])
      · rintro (hq | hq)
        · exact Or.inl (Or.inl hq)
        · rcases List.mem_cons.mp hq with he | he
          · obtain ⟨rfl, -⟩ := Prod.ext_iff.mp he
            exact Or.inl (Or.inr rfl)
          · exact Or.inr he

theorem pair_true_mem_iff_osLookup (os : OpenStateMap) (q : JStr)
    (hnd : (os.map Prod.fst).Nodup) :
    (q, true) ∈ os ↔ osLookup os q = some true := by
  induction os with
  | nil => simp [osLookup]
  | cons kv rest ih =>
    obtain ⟨k, v⟩ := kv
    rw [List.map_cons] at hnd
    have hnk : k ∉ rest.map Prod.fst := (List.nodup_cons.mp hnd).1
    have hndr : (rest.map Prod.fst).Nodup := (List.nodup_cons.mp hnd).2
    by_cases hk : k = q
    · subst hk
      simp only [osLookup, if_pos rfl, List.mem_cons]
      constructor
      · rintro (he | he)
        · obtain ⟨-, rfl⟩ := Prod.ext_iff.mp he
          rfl
        · exact absurd (List.mem_map_of_mem Prod.fst he) (by simpa using hnk)
      · intro he
        obtain rfl : v = true := by simpa using he
        exact Or.inl rfl
    · simp only [osLookup, if_neg hk, List.mem_cons]
      rw [← ih hndr]
      constructor
      · rintro (he | he)
        · obtain ⟨rfl, -⟩ := Prod.ext_iff.mp he
          exact absurd rfl hk
        · exact he
      · exact Or.inr

theorem slashJoin_cons (p : JStr) (ps : List JStr) (h : ps ≠ []) :
    slashJoin (p :: ps) = p ++ '/' :: slashJoin ps := by
  cases ps with
  | nil => exact absurd rfl h
  | cons q rest => rfl

theorem mem_addRevealParts (parts : List JStr) :
    ∀ (acc : List JStr) (r q : JStr), r ≠ [] →
      (q ∈ addRevealParts acc r parts ↔
        q ∈ acc ∨ ∃ k, k < parts.length ∧
          q = r ++ '/' :: slashJoin (parts.take (k + 1))) := by
  induction parts with
  | nil => intro acc r q _; simp [addRevealParts]
  | cons a ps ih =>
    intro acc r q hr
    have hstep : addRevealParts acc r (a :: ps) =
        addRevealParts (setAdd acc (r ++ '/' :: a)) (r ++ '/' :: a) ps := by
      simp [addRevealParts, hr]
    rw [hstep, ih (setAdd acc (r ++ '/' :: a)) (r ++ '/' :: a) q (by simp),
      mem_setAdd]
    constructor
    · rintro ((hq | rfl) | ⟨k, hk, rfl⟩)
      · exact Or.inl hq
      · refine Or.inr ⟨0, by simp, ?_⟩
        simp [slashJoin]
      · refine Or.inr ⟨k + 1, by simpa using hk, ?_⟩
        have hne : ps.take (k + 1) ≠ [] := by
          have : ps ≠ [] := by
            intro h0
            rw [h0] at hk
            simp at hk
          cases ps with
          | nil => exact absurd rfl this
          | cons b bs => simp
        rw [List.take_succ_cons, slashJoin_cons a _ hne]
        simp
    · rintro (hq | ⟨k, hk, rfl⟩)
      · exact Or.inl (Or.inl hq)
      · cases k with
        | zero =>
          refine Or.inl (Or.inr ?_)
          simp [slashJoin]
        | succ j =>
          refine Or.inr ⟨j, by simpa using hk, ?_⟩
          have hne : ps.take (j + 1) ≠ [] := by
            have hps : ps ≠ [] := by
              intro h0
              rw [h0] at hk
              simp at hk
            cases ps with
            | nil => exact absurd rfl hps
            | cons b bs => simp
          rw [List.take_succ_cons, slashJoin_cons a _ hne]
          simp

end Unfold

namespace Unfold

theorem take_succ_ne_nil {α : Type} (ps : List α) (k : ℕ) (h : k < ps.length) :
    ps.take (k + 1) ≠ [] := by
  cases ps with
  | nil => simp at h
  | cons b bs => simp

theorem mem_addRevealParts_start (acc : List JStr) (a : JStr) (ps : List JStr)
    (q : JStr) (ha : a ≠ []) :
    q ∈ addRevealParts acc [] (a :: ps) ↔
      q ∈ acc ∨ ∃ k, k < (a :: ps).length ∧
        q = slashJoin ((a :: ps).take (k + 1)) := by
  have hstep : addRevealParts acc [] (a :: ps) =
      addRevealParts (setAdd acc a) a ps := by
    simp [addRevealParts]
  rw [hstep, mem_addRevealParts ps (setAdd acc a) a q ha, mem_setAdd]
  constructor
  · rintro ((hq | rfl) | ⟨k, hk, rfl⟩)
    · exact Or.inl hq
    · exact Or.inr ⟨0, by simp, by simp [slashJoin]⟩
    · refine Or.inr ⟨k + 1, by simpa using hk, ?_⟩
      rw [List.take_succ_cons, slashJoin_cons a _ (take_succ_ne_nil ps k hk)]
  · rintro (hq | ⟨k, hk, hq⟩)
    · exact Or.inl (Or.inl hq)
    · cases k with
      | zero =>
        refine Or.inl (Or.inr ?_)
        simpa [slashJoin] using hq
      | succ j =>
        have hj : j < ps.length := by simpa using hk
        refine Or.inr ⟨j, hj, ?_⟩
        rw [List.take_succ_cons, slashJoin_cons a _ (take_succ_ne_nil ps j hj)]
          at hq
        exact hq

theorem splitOn_head_of_no_lead (np : JStr) (h0 : np ≠ [])
    (h1 : np.head? ≠ some '/') :
    ∃ a ps, np.splitOn '/' = a :: ps ∧ a ≠ [] := by
  cases np with
  | nil => exact absurd rfl h0
  | cons c l =>
    have hc : ¬ ((c == '/') = true) := by
      intro hb
      exact h1 (by simp [beq_iff_eq.mp hb])
    have hsplit : (c :: l).splitOn '/' =
        (l.splitOn '/').modifyHead (List.cons c) := by
      simp only [List.splitOn, List.splitOnP_cons, if_neg hc]
    cases hl : l.splitOn '/' with
    | nil => exact absurd hl (List.splitOnP_ne_nil _ l)
    | cons b bs =>
      refine ⟨c :: b, bs, ?_, by simp⟩
      rw [hsplit, hl]
      rfl

theorem osGet_eq_true_iff (m : OpenStateMap) (k : JStr) :
    osGet m k = true ↔ osLookup m k = some true := by
  unfold osGet
  cases h : osLookup m k with
  | none => simp
  | some b => simp

theorem mem_buildExpandedPaths_iff (os : OpenStateMap) (root : JStr)
    (ptu : Option JStr) (q : JStr) (hnd : (os.map Prod.fst).Nodup)
    (hlead : ∀ np, normalizePath ptu = some np → np.head? ≠ some '/') :
    q ∈ buildExpandedPaths os root ptu ↔
      specExpandedMem os root ptu q ∧ q ≠ [] := by
  have hbase : ∀ x, x ∈ os.foldl setAddOpen (setAdd [] root) ↔
      x = root ∨ osGet os x = true := by
    intro x
    rw [mem_foldl_setAdd_true, mem_setAdd,
      osGet_eq_true_iff, ← pair_true_mem_iff_osLookup os x hnd]
    simp
  unfold buildExpandedPaths
  cases hn : normalizePath ptu with
  | none =>
    simp only [List.mem_filter]
    rw [hbase q]
    unfold specExpandedMem
    rw [hn]
    constructor
    · rintro ⟨hq, hne⟩
      exact ⟨by tauto, by simpa using hne⟩
    · rintro ⟨hq, hne⟩
      refine ⟨?_, by simpa using hne⟩
      rcases hq with hq | hq | ⟨np, hnp, -⟩
      · exact Or.inl hq
      · exact Or.inr hq
      · cases hnp
  | some np =>
    by_cases hemp : np = []
    · subst hemp
      simp only [List.mem_filter, reduceIte]
      rw [hbase q]
      unfold specExpandedMem
      rw [hn]
      constructor
      · rintro ⟨hq, hne⟩
        exact ⟨by tauto, by simpa using hne⟩
      · rintro ⟨hq, hne⟩
        refine ⟨?_, by simpa using hne⟩
        rcases hq with hq | hq | ⟨np', hnp', hne', -⟩
        · exact Or.inl hq
        · exact Or.inr hq
        · obtain rfl : np' = [] := by simpa using hnp'
          exact absurd rfl hne'
    · obtain ⟨a, ps, hsplit, ha⟩ :=
        splitOn_head_of_no_lead np hemp (hlead np hn)
      simp only [if_neg hemp, List.mem_filter, hsplit]
      rw [mem_addRevealParts_start _ a ps q ha, hbase q]
      unfold specExpandedMem
      rw [hn]
      constructor
      · rintro ⟨hq, hne⟩
        refine ⟨?_, by simpa using hne⟩
        rcases hq with (hq | hq) | ⟨k, hk, hq⟩
        · exact Or.inl hq
        · exact Or.inr (Or.inl hq)
        · refine Or.inr (Or.inr ⟨np, rfl, hemp, ?_⟩)
          unfold specRevealPrefixes
          rw [hsplit]
          exact List.mem_map.mpr ⟨k, List.mem_range.mpr hk, hq.symm⟩
      · rintro ⟨hq, hne⟩
        refine ⟨?_, by simpa using hne⟩
        rcases hq with hq | hq | ⟨np', hnp', -, hmem⟩
        · exact Or.inl (Or.inl hq)
        · exact Or.inl (Or.inr hq)
        · obtain rfl : np = np' := by simpa using hnp'
          unfold specRevealPrefixes at hmem
          rw [hsplit] at hmem
          obtain ⟨k, hk, hq⟩ := List.mem_map.mp hmem
          exact Or.inr ⟨k, List.mem_range.mp hk, hq.symm⟩

end Unfold

namespace Unfold

/-- Claim C2 (amended): for every `openState` (a JavaScript object, so with
pairwise-distinct keys), `rootPath` and `pathToReveal` whose normalization does
not begin with a slash, `buildExpandedPaths` returns, as a set, exactly
`{rootPath} ∪ {p : openState[p] = true} ∪ {every slash-separated prefix of the
normalized pathToReveal}` **with the empty string removed**; in particular
revealing `a/b/c` under a non-empty root yields exactly
`{root, a, a/b, a/b/c}` together with the previously-open paths. -/
theorem buildExpandedPaths_spec_set (os : OpenStateMap) (root : JStr)
    (ptu : Option JStr) (hnd : (os.map Prod.fst).Nodup)
    (hlead : ∀ np, normalizePath ptu = some np → np.head? ≠ some '/') :
    ∀ q, q ∈ buildExpandedPaths os root ptu ↔
      specExpandedMem os root ptu q ∧ q ≠ [] := fun q =>
  mem_buildExpandedPaths_iff os root ptu q hnd hlead

/-- Counterexample to claim C2 as stated: with the default JupyterLab root
(`rootPath = ''`) and nothing else, the claimed set contains the root, but
`buildExpandedPaths` returns a list from which the root is absent. -/
theorem buildExpandedPaths_root_dropped :
    specExpandedMem [] [] none [] ∧ [] ∉ buildExpandedPaths [] [] none :=
  ⟨Or.inl rfl, by decide⟩

/-- Witness for `buildExpandedPaths_spec_set` at a concrete state, root and
reveal path. -/
theorem buildExpandedPaths_spec_set_witness :
    (['a'] ∈ buildExpandedPaths [(['x'], true)] ['r'] (some ['a', '/', 'b']) ↔
      specExpandedMem [(['x'], true)] ['r'] (some ['a', '/', 'b']) ['a'] ∧
        ['a'] ≠ []) := by
  have hn : normalizePath (some ['a', '/', 'b']) = some ['a', '/', 'b'] := by
    decide
  exact buildExpandedPaths_spec_set [(['x'], true)] ['r']
    (some ['a', '/', 'b']) (by decide)
    (fun np h => by
      rw [hn] at h
      obtain rfl := Option.some.inj h
      decide) ['a']

/-- Claim C10: `buildExpandedPaths` never returns a list containing the empty
string, and in particular under the empty root path (the default JupyterLab
root) the root is absent from the returned expanded-path list even though the
algorithm first adds it. -/
theorem buildExpandedPaths_no_empty (os : OpenStateMap) (root : JStr)
    (ptu : Option JStr) :
    (∀ q ∈ buildExpandedPaths os root ptu, q ≠ []) ∧
      (root = [] → root ∉ buildExpandedPaths os root ptu) := by
  constructor
  · intro q hq
    unfold buildExpandedPaths at hq
    have hf := List.mem_filter.mp hq
    simpa using hf.2
  · rintro rfl h
    have hf := List.mem_filter.mp h
    simp at hf

/-- Witness for `buildExpandedPaths_no_empty`: the empty root is dropped from
a concrete expanded-path list. -/
theorem buildExpandedPaths_no_empty_witness :
    ([] : JStr) ∉ buildExpandedPaths [(['a'], true)] [] (some ['/', 'a']) :=
  (buildExpandedPaths_no_empty [(['a'], true)] [] (some ['/', 'a'])).2 rfl

end Unfold

namespace Unfold

theorem visibleRows_clamp_eq (h : ℚ) :
    max (200 : ℤ) ⌈max h 24 / (24 : ℚ)⌉ = max 200 ⌈h / (24 : ℚ)⌉ := by
  rcases le_total h 24 with hc | hc
  · rw [max_eq_right hc]
    have h24 : ⌈(24 : ℚ) / 24⌉ = 1 := by norm_num
    have hle : ⌈h / (24 : ℚ)⌉ ≤ 1 := by
      rw [← h24]
      exact Int.ceil_le_ceil (div_le_div_of_nonneg_right hc (by norm_num))
    rw [h24, max_eq_left (by omega), max_eq_left (by omega)]
  · rw [max_eq_left hc]

/-- Claim C3: under the default configuration (`threshold = 2500`,
`rowHeight = 24`, `overscanRows = 80`, `minRows = 200`), for every positive row
count, every viewport height and every non-negative scroll offset,
`computeVisibleRange` computes exactly the spec's formulas:
`visibleRowCount = max(minRows, ceil(viewport/rowHeight))`,
`firstVisible = min(totalRows - 1, floor(scrollTop/rowHeight))` clamped to
`≥ 0`, `start = max(0, firstVisible - overscanRows)`, and
`end = max(start + 1, min(totalRows, firstVisible + visibleRowCount +
overscanRows))`. -/
theorem computeVisibleRange_matches_spec (n : ℕ) (h s : ℚ) (hn : 0 < n)
    (hs : 0 ≤ s) :
    computeVisibleRange defaultVirtOptions n h s = specVisibleRange n h s := by
  have hn0 : n ≠ 0 := hn.ne'
  have hn1 : (0 : ℤ) ≤ (n : ℤ) - 1 := by
    have : (1 : ℤ) ≤ (n : ℤ) := by exact_mod_cast hn
    omega
  have hf : 0 ≤ ⌊s / (24 : ℚ)⌋ :=
    Int.floor_nonneg.mpr (div_nonneg hs (by norm_num))
  simp only [computeVisibleRange, specVisibleRange, defaultVirtOptions,
    if_neg hn0, Nat.cast_ofNat]
  rw [visibleRows_clamp_eq h, max_eq_right hs, max_eq_right hn1,
    max_eq_right (le_min hn1 hf)]

/-- Witness for `computeVisibleRange_matches_spec` at the spec's 20,000-row,
600px-viewport, top-of-scroll scenario. -/
theorem computeVisibleRange_matches_spec_witness :
    0 < 20000 ∧ (0 : ℚ) ≤ 0 ∧
      computeVisibleRange defaultVirtOptions 20000 600 0 =
        specVisibleRange 20000 600 0 :=
  ⟨by decide, le_refl 0,
    computeVisibleRange_matches_spec 20000 600 0 (by decide) (le_refl 0)⟩

/-- Claim C8: `computeVisibleRange` is monotonic in the scroll position — for
a fixed row count and viewport height (default configuration), increasing
`scrollTopPx` never decreases the window `start`. -/
theorem computeVisibleRange_start_monotone (n : ℕ) (h s₁ s₂ : ℚ)
    (hs : s₁ ≤ s₂) :
    (computeVisibleRange defaultVirtOptions n h s₁).1 ≤
      (computeVisibleRange defaultVirtOptions n h s₂).1 := by
  by_cases hn : n = 0
  · simp [computeVisibleRange, hn]
  · have h0 : max 0 s₁ ≤ max 0 s₂ := max_le_max le_rfl hs
    have h1 : ⌊max 0 s₁ / (24 : ℚ)⌋ ≤ ⌊max 0 s₂ / (24 : ℚ)⌋ :=
      Int.floor_le_floor (div_le_div_of_nonneg_right h0 (by norm_num))
    simp only [computeVisibleRange, if_neg hn, defaultVirtOptions]
    exact max_le_max le_rfl
      (sub_le_sub_right (min_le_min le_rfl h1) _)

/-- Witness for `computeVisibleRange_start_monotone` at concrete scroll
offsets. -/
theorem computeVisibleRange_start_monotone_witness :
    (0 : ℚ) ≤ 4800 ∧
      (computeVisibleRange defaultVirtOptions 20000 600 0).1 ≤
        (computeVisibleRange defaultVirtOptions 20000 600 4800).1 :=
  ⟨by norm_num,
    computeVisibleRange_start_monotone 20000 600 0 4800 (by norm_num)⟩

end Unfold

namespace Unfold

/-- The `VirtualWindow` invariant claimed for `computeWindow`'s results: spacer
heights determined by `rangeStart`, the visible count and the row height, and
the full-list pass-through below the virtualization threshold. -/
def windowInvariant (o : VirtOptions) (allItems : List Entry)
    (w : VirtualWindow) : Prop :=
  w.topPx = (w.rangeStart : ℚ) * o.rowHeight ∧
  w.bottomPx =
    ((max 0 ((allItems.length : ℤ) -
      (w.rangeStart + (w.visibleItems.length : ℤ))) : ℤ) : ℚ) * o.rowHeight ∧
  (w.virtualized = false ↔ allItems.length < o.threshold) ∧
  (allItems.length < o.threshold →
    w.virtualized = false ∧ w.rangeStart = 0 ∧ w.visibleItems = allItems ∧
      w.topPx = 0 ∧ w.bottomPx = 0)

theorem computeVisibleRange_bounds (o : VirtOptions) (n : ℕ) (h s : ℚ)
    (hn : n ≠ 0) :
    0 ≤ (computeVisibleRange o n h s).1 ∧
      (computeVisibleRange o n h s).1 < (computeVisibleRange o n h s).2 ∧
      (computeVisibleRange o n h s).2 ≤ (n : ℤ) := by
  have hcast : (1 : ℤ) ≤ (n : ℤ) := by
    exact_mod_cast Nat.one_le_iff_ne_zero.mpr hn
  simp only [computeVisibleRange, if_neg hn]
  refine ⟨le_max_left 0 _, ?_, ?_⟩
  · exact lt_of_lt_of_le (lt_add_one _) (le_max_left _ _)
  · have hfv : min (max 0 ((n : ℤ) - 1)) ⌊max 0 s / o.rowHeight⌋ ≤
        (n : ℤ) - 1 := by
      rw [max_eq_right (by omega)]
      exact min_le_left _ _
    have hover : (0 : ℤ) ≤ (o.overscanRows : ℤ) := Int.natCast_nonneg _
    have hstart : max 0 (min (max 0 ((n : ℤ) - 1))
        ⌊max 0 s / o.rowHeight⌋ - (o.overscanRows : ℤ)) ≤ (n : ℤ) - 1 :=
      max_le (by omega) (by omega)
    exact max_le (by omega) (min_le_left _ _)

theorem computeWindow_below (o : VirtOptions) (allItems : List Entry)
    (h s : ℚ) (hv : ¬ o.threshold ≤ allItems.length) :
    computeWindow o allItems h s = ⟨allItems, allItems, 0, 0, 0, false⟩ := by
  unfold computeWindow
  rw [if_pos (by simpa [shouldVirtualize] using hv)]

theorem computeWindow_above (o : VirtOptions) (allItems : List Entry)
    (h s : ℚ) (hv : o.threshold ≤ allItems.length) :
    computeWindow o allItems h s =
      ⟨allItems,
        (allItems.drop (computeVisibleRange o allItems.length h s).1.toNat).take
          ((computeVisibleRange o allItems.length h s).2 -
            (computeVisibleRange o allItems.length h s).1).toNat,
        (computeVisibleRange o allItems.length h s).1,
        ((computeVisibleRange o allItems.length h s).1 : ℚ) * o.rowHeight,
        ((max 0 ((allItems.length : ℤ) -
          (computeVisibleRange o allItems.length h s).2) : ℤ) : ℚ) *
          o.rowHeight,
        true⟩ := by
  unfold computeWindow
  rw [if_neg (by simpa [shouldVirtualize] using hv)]

/-- Claim C4: every value returned by `computeWindow` satisfies the
`VirtualWindow` invariant — `topPx = rangeStart * rowHeight`, `bottomPx =
max(0, totalRows - (rangeStart + visibleItems.length)) * rowHeight` — and the
non-virtualized branch is taken exactly when `totalRows < threshold`, in which
case `virtualized = false`, `rangeStart = 0`, `visibleItems` is the entire
input row list and both spacer heights are `0`. -/
theorem computeWindow_invariant (o : VirtOptions) (allItems : List Entry)
    (h s : ℚ) : windowInvariant o allItems (computeWindow o allItems h s) := by
  by_cases hv : o.threshold ≤ allItems.length
  · have hvlt : ¬ allItems.length < o.threshold := not_lt.mpr hv
    rw [computeWindow_above o allItems h s hv]
    by_cases h0 : allItems.length = 0
    · have hnil : allItems = [] := List.length_eq_zero.mp h0
      subst hnil
      refine ⟨?_, ?_, ?_, ?_⟩
      · simp [computeVisibleRange]
      · simp [computeVisibleRange]
      · simpa using hvlt
      · intro hlt
        exact absurd hlt hvlt
    · obtain ⟨ha, hab, hb⟩ :=
        computeVisibleRange_bounds o allItems.length h s h0
      refine ⟨by simp, ?_, by simpa using hvlt, fun hlt => absurd hlt hvlt⟩
      show ((max 0 ((allItems.length : ℤ) -
          (computeVisibleRange o allItems.length h s).2) : ℤ) : ℚ) *
          o.rowHeight = _
      have hlen : ((allItems.drop (computeVisibleRange o allItems.length
          h s).1.toNat).take ((computeVisibleRange o allItems.length h s).2 -
            (computeVisibleRange o allItems.length h s).1).toNat).length =
          min ((computeVisibleRange o allItems.length h s).2 -
            (computeVisibleRange o allItems.length h s).1).toNat
            (allItems.length -
              (computeVisibleRange o allItems.length h s).1.toNat) := by
        simp [List.length_take, List.length_drop]
      simp only [hlen]
      congr 2
      omega
  · have hvlt : allItems.length < o.threshold := not_le.mp hv
    rw [computeWindow_below o allItems h s hv]
    refine ⟨by simp, by simp, by simpa using hvlt, fun _ => by simp⟩

/-- Witness for `computeWindow_invariant` (and its below-threshold branch) at
a concrete one-row list. -/
theorem computeWindow_invariant_witness :
    windowInvariant defaultVirtOptions [⟨['a'], ['a'], EntryType.file⟩]
      (computeWindow defaultVirtOptions [⟨['a'], ['a'], EntryType.file⟩]
        600 0) :=
  computeWindow_invariant defaultVirtOptions [⟨['a'], ['a'], EntryType.file⟩]
    600 0

end Unfold

namespace Unfold

theorem edgeVelocity_at_bottom_edge (g : ScrollGeom)
    (hh : g.rectTop + 30 ≤ g.rectBottom) :
    computeEdgeScrollVelocity g (g.rectBottom - 2) = 845 / 49 := by
  have hcond1 : ¬ (g.rectBottom - 2 < g.rectTop ∨
      g.rectBottom < g.rectBottom - 2) := by
    rintro (hc | hc) <;> linarith
  have hcond2 : ¬ (g.rectBottom - 2 - g.rectTop < 28) := by linarith
  have hcond3 : g.rectBottom - (g.rectBottom - 2) < 28 := by linarith
  simp only [computeEdgeScrollVelocity, if_neg hcond1, if_neg hcond2,
    if_pos hcond3]
  have h2 : g.rectBottom - (g.rectBottom - 2) = 2 := by ring
  rw [h2]
  norm_num

/-- Claim C6 (amended): with the pointer held at `clientY = containerBottom -
2px` over a container at least 30px tall, each auto-scroll step strictly
increases `scrollTop` until it reaches `scrollHeight - clientHeight`; once
there, further steps leave `scrollTop` unchanged (the clamp pins it, while the
recomputed edge velocity stays at its fixed positive value). -/
theorem autoScroll_strict_until_max (g : ScrollGeom) (st : ℚ)
    (hh : g.rectTop + 30 ≤ g.rectBottom) (hst0 : 0 ≤ st)
    (_hstm : st ≤ g.scrollHeight - g.clientHeight) :
    (st < g.scrollHeight - g.clientHeight →
      st < autoScrollStep g (g.rectBottom - 2) st ∧
        autoScrollStep g (g.rectBottom - 2) st ≤
          g.scrollHeight - g.clientHeight) ∧
    (st = g.scrollHeight - g.clientHeight →
      autoScrollStep g (g.rectBottom - 2) st = st) := by
  have hv := edgeVelocity_at_bottom_edge g hh
  constructor
  · intro hlt
    have hx : st < min (g.scrollHeight - g.clientHeight) (st + 845 / 49) :=
      lt_min hlt (by linarith)
    have h0x : 0 ≤ min (g.scrollHeight - g.clientHeight) (st + 845 / 49) :=
      le_trans hst0 hx.le
    rw [autoScrollStep, hv, max_eq_right h0x]
    exact ⟨hx, min_le_left _ _⟩
  · intro heq
    have hmin : min (g.scrollHeight - g.clientHeight) (st + 845 / 49) =
        g.scrollHeight - g.clientHeight :=
      min_eq_left (by linarith)
    rw [autoScrollStep, hv, hmin, ← heq, max_eq_right hst0]

/-- Counterexample to claim C6 as stated: at a concrete geometry with
`scrollTop` already at `scrollHeight - clientHeight`, the step leaves
`scrollTop` pinned but the edge-scroll velocity does **not** evaluate to `0` —
it stays at its fixed positive bottom-edge value. -/
theorem edgeVelocity_nonzero_at_max :
    autoScrollStep ⟨0, 100, 200, 100⟩ 98 100 = 100 ∧
      computeEdgeScrollVelocity ⟨0, 100, 200, 100⟩ 98 ≠ 0 := by
  have hv : computeEdgeScrollVelocity ⟨0, 100, 200, 100⟩ 98 = 845 / 49 := by
    have := edgeVelocity_at_bottom_edge ⟨0, 100, 200, 100⟩ (by norm_num)
    norm_num at this
    exact this
  constructor
  · rw [autoScrollStep]
    norm_num [hv]
  · rw [hv]
    norm_num

/-- Witness for `autoScroll_strict_until_max` at a concrete geometry and
scroll position strictly below the maximum. -/
theorem autoScroll_strict_until_max_witness :
    ((0 : ℚ) + 30 ≤ 100 ∧ (0 : ℚ) ≤ 50 ∧ (50 : ℚ) ≤ 200 - 100) ∧
      ((50 < (200 : ℚ) - 100 →
        50 < autoScrollStep ⟨0, 100, 200, 100⟩ (100 - 2) 50 ∧
          autoScrollStep ⟨0, 100, 200, 100⟩ (100 - 2) 50 ≤
            (200 : ℚ) - 100) ∧
      ((50 : ℚ) = 200 - 100 →
        autoScrollStep ⟨0, 100, 200, 100⟩ (100 - 2) 50 = 50)) :=
  ⟨⟨by norm_num, by norm_num, by norm_num⟩,
    autoScroll_strict_until_max ⟨0, 100, 200, 100⟩ 50 (by norm_num)
      (by norm_num) (by norm_num)⟩

end Unfold

namespace Unfold

/-- Claim C7: `fetchWithFallback` returns the server strategy's result (tagged
`source = server`) whenever the server round trip succeeds; if the server
strategy throws it returns the Contents-API fallback's result instead; and the
returned computation fails if and only if both the server strategy and the
fallback strategy fail. -/
theorem fetchWithFallback_error_contract
    (serverFetch : List JStr → Option JStr → Except Unit (List Entry))
    (fails : JStr → Bool) (tree : List FsNode) (rootPath : JStr)
    (ptu : Option JStr) (os : OpenStateMap) :
    (∀ r, fetchViaServerE serverFetch rootPath ptu os = Except.ok r →
      fetchWithFallbackE serverFetch fails tree rootPath ptu os =
        Except.ok r ∧ r.1.source = FetchSource.server) ∧
    (∀ er : Unit,
      fetchViaServerE serverFetch rootPath ptu os = Except.error er →
      fetchWithFallbackE serverFetch fails tree rootPath ptu os =
        fetchViaContentsE fails tree rootPath ptu os) ∧
    ((fetchWithFallbackE serverFetch fails tree rootPath ptu os).isOk =
        false ↔
      (fetchViaServerE serverFetch rootPath ptu os).isOk = false ∧
        (fetchViaContentsE fails tree rootPath ptu os).isOk = false) := by
  cases hs : serverFetch (buildExpandedPaths os rootPath ptu)
      (normalizePath ptu) with
  | error e =>
    have hserver : fetchViaServerE serverFetch rootPath ptu os =
        Except.error e := by
      simp [fetchViaServerE, hs]
    have hfb : fetchWithFallbackE serverFetch fails tree rootPath ptu os =
        fetchViaContentsE fails tree rootPath ptu os := by
      simp [fetchWithFallbackE, hserver]
    refine ⟨?_, fun er _ => hfb, ?_⟩
    · intro r hr
      rw [hserver] at hr
      simp at hr
    · rw [hfb, hserver]
      cases hc : fetchViaContentsE fails tree rootPath ptu os <;>
        simp [Except.isOk, Except.toBool]
  | ok items =>
    have hserver : fetchViaServerE serverFetch rootPath ptu os =
        Except.ok (⟨items, FetchSource.server⟩,
          reconcileOpenStateFromItems os items
            (buildExpandedPaths os rootPath ptu) rootPath) := by
      simp [fetchViaServerE, hs]
    have hfb : fetchWithFallbackE serverFetch fails tree rootPath ptu os =
        Except.ok (⟨items, FetchSource.server⟩,
          reconcileOpenStateFromItems os items
            (buildExpandedPaths os rootPath ptu) rootPath) := by
      simp [fetchWithFallbackE, hserver]
    refine ⟨?_, ?_, ?_⟩
    · intro r hr
      rw [hserver] at hr
      obtain rfl := Except.ok.inj hr
      exact ⟨hfb, rfl⟩
    · intro er her
      rw [hserver] at her
      simp at her
    · rw [hfb, hserver]
      simp [Except.isOk, Except.toBool]

/-- Witness for `fetchWithFallback_error_contract`: with a failing server
oracle, the fallback result is returned. -/
theorem fetchWithFallback_error_contract_witness :
    fetchViaServerE (fun _ _ => Except.error ()) [] none [] =
        Except.error () ∧
      fetchWithFallbackE (fun _ _ => Except.error ()) (fun _ => false) [] []
          none [] =
        fetchViaContentsE (fun _ => false) [] [] none [] :=
  ⟨rfl,
    (fetchWithFallback_error_contract (fun _ _ => Except.error ())
      (fun _ => false) [] [] none []).2.1 () rfl⟩

end Unfold

namespace Unfold

/-- The invariant defusing double spring-loads: once a path is recorded as
spring-opened, no armed timer captures it (arming re-checks the
spring-opened set, and firing is what records it while consuming the timer). -/
def springInv (p : JStr) (s : DragState) : Prop :=
  p ∈ s.springOpenedPaths → s.armedTimerPath ≠ some p

/-- How many spring-load invocations path `p` may still receive in a session
whose state is `s`. -/
def springBudget (p : JStr) (s : DragState) : ℕ :=
  if p ∈ s.springOpenedPaths then 0 else 1

theorem sprung_cancelSpringHover (s : DragState) :
    (cancelSpringHover s).springOpenedPaths = s.springOpenedPaths := rfl

theorem sprung_updateSpringHover (env : DragEnv) (s : DragState) (path : JStr) :
    (updateSpringHover env s path).springOpenedPaths =
      s.springOpenedPaths := by
  unfold updateSpringHover
  split_ifs <;> rfl

theorem sprung_setDropTargetPath (env : DragEnv) (s : DragState)
    (target : Option JStr) :
    (setDropTargetPath env s target).springOpenedPaths =
      s.springOpenedPaths := by
  unfold setDropTargetPath
  split_ifs with ha
  · rfl
  · cases target with
    | none => rfl
    | some q => exact sprung_updateSpringHover env _ q

theorem springInv_updateSpringHover (p : JStr) (env : DragEnv) (s : DragState)
    (path : JStr) (hinv : springInv p s) :
    springInv p (updateSpringHover env s path) := by
  unfold springInv updateSpringHover
  by_cases hss : env.getItemByPath path = some EntryType.directory ∧
      env.isPathOpen path = false ∧ path ∉ s.springOpenedPaths
  · rw [if_neg (not_not_intro hss)]
    by_cases hk : s.springHoverPath = some path ∧ s.timerHandleNonzero = true
    · rw [if_pos hk]
      exact hinv
    · rw [if_neg hk]
      intro hmem hcontra
      obtain rfl : path = p := by simpa using hcontra
      exact hss.2.2 hmem
  · rw [if_pos hss]
    intro _ hcontra
    simp [cancelSpringHover] at hcontra

theorem springInv_setDropTargetPath (p : JStr) (env : DragEnv) (s : DragState)
    (target : Option JStr) (hinv : springInv p s) :
    springInv p (setDropTargetPath env s target) := by
  unfold setDropTargetPath
  split_ifs with ha
  · exact hinv
  · cases target with
    | none =>
      intro _ hcontra
      simp [cancelSpringHover] at hcontra
    | some q => exact springInv_updateSpringHover p env _ q hinv

theorem spring_step_bound (p : JStr) (s : DragState) (e : DragEvent)
    (he : e ≠ DragEvent.cleanupEvent) (hinv : springInv p s) :
    (dragStep s e).2.count p + springBudget p (dragStep s e).1 ≤
        springBudget p s ∧
      springInv p (dragStep s e).1 := by
  cases e with
  | cleanupEvent => exact absurd rfl he
  | dragOver env target =>
    have hbud : springBudget p (setDropTargetPath env s target) =
        springBudget p s := by
      unfold springBudget
      rw [sprung_setDropTargetPath]
    exact ⟨by simp [dragStep, hbud],
      springInv_setDropTargetPath p env s target hinv⟩
  | timerElapsed env =>
    have hstep : dragStep s (DragEvent.timerElapsed env) =
        fireSpringTimer env s := rfl
    rw [hstep]
    cases harm : s.armedTimerPath with
    | none =>
      rw [show fireSpringTimer env s = (s, []) from by
        simp [fireSpringTimer, harm]]
      exact ⟨by simp, hinv⟩
    | some path =>
      cases hhov : s.springHoverPath with
      | none =>
        rw [show fireSpringTimer env s = ({ s with armedTimerPath := none }, [])
            from by simp [fireSpringTimer, harm, hhov]]
        refine ⟨by simp [springBudget], ?_⟩
        intro _ hcontra
        simp at hcontra
      | some hover =>
        by_cases hguard : hover ≠ path ∨ env.isPathOpen path = true
        · rw [show fireSpringTimer env s =
              ({ s with armedTimerPath := none }, []) from by
            simp only [fireSpringTimer, harm, hhov]
            rw [if_pos hguard]]
          refine ⟨by simp [springBudget], ?_⟩
          intro _ hcontra
          simp at hcontra
        · rw [show fireSpringTimer env s =
              ({ s with
                  armedTimerPath := none,
                  springOpenedPaths := path :: s.springOpenedPaths },
                [path]) from by
            simp only [fireSpringTimer, harm, hhov]
            rw [if_neg hguard]]
          constructor
          · by_cases hp : p = path
            · subst hp
              have hnot : p ∉ s.springOpenedPaths := fun hmem =>
                hinv hmem harm
              simp [springBudget, hnot, List.count_cons]
            · have hcnt : List.count p [path] = 0 := by
                simp [List.count_cons]
                exact fun hcontra => hp hcontra.symm
              rw [hcnt]
              have hm : (p ∈ path :: s.springOpenedPaths) ↔
                  p ∈ s.springOpenedPaths := by
                simp [List.mem_cons, hp]
              unfold springBudget
              simp only [hm]
              omega
          · intro _ hcontra
            simp at hcontra

theorem spring_run_bound (p : JStr) :
    ∀ (events : List DragEvent) (s : DragState),
      cleanupFree events → springInv p s →
      (dragRun s events).2.count p + springBudget p (dragRun s events).1 ≤
          springBudget p s ∧
        springInv p (dragRun s events).1 := by
  intro events
  induction events with
  | nil => intro s _ hinv; exact ⟨by simp [dragRun], by simpa [dragRun] using hinv⟩
  | cons e rest ih =>
    intro s hcf hinv
    have he : e ≠ DragEvent.cleanupEvent := hcf e (by simp)
    have hcf' : cleanupFree rest := fun x hx => hcf x (by simp [hx])
    obtain ⟨hb1, hi1⟩ := spring_step_bound p s e he hinv
    obtain ⟨hb2, hi2⟩ := ih (dragStep s e).1 hcf' hi1
    have hrun : dragRun s (e :: rest) =
        ((dragRun (dragStep s e).1 rest).1,
          (dragStep s e).2 ++ (dragRun (dragStep s e).1 rest).2) := by
      simp [dragRun]
    rw [hrun]
    refine ⟨?_, hi2⟩
    simp only [List.count_append]
    omega

end Unfold

namespace Unfold

/-- Claim C5: within a single drag session (a cleanup-free event sequence from
the freshly constructed or cleaned-up state), the injected open-path callback
is invoked at most once per path; hovering a closed directory row until the
500 ms timer elapses, with no intervening target change, invokes it exactly
once for that path, and any later events of the same session invoke it zero
further times for that path. -/
theorem spring_load_once (p : JStr) :
    (∀ events : List DragEvent, cleanupFree events →
      (dragRun initDragState events).2.count p ≤ 1) ∧
    (∀ (env env' : DragEnv) (rest : List DragEvent),
      env.getItemByPath p = some EntryType.directory →
      env.isPathOpen p = false →
      env'.isPathOpen p = false →
      cleanupFree rest →
      (dragRun initDragState (DragEvent.dragOver env (some p) ::
        DragEvent.timerElapsed env' :: rest)).2.count p = 1) := by
  have hinv0 : springInv p initDragState := by
    intro hmem
    simp [initDragState] at hmem
  constructor
  · intro events hcf
    obtain ⟨hb, -⟩ := spring_run_bound p events initDragState hcf hinv0
    have hone : springBudget p initDragState = 1 := by
      simp [springBudget, initDragState]
    rw [hone] at hb
    omega
  · intro env env' rest hgi hio hio' hcf
    have h1 : dragStep initDragState (DragEvent.dragOver env (some p)) =
        (⟨some p, some p, true, some p, []⟩, []) := by
      simp [dragStep, setDropTargetPath, initDragState, updateSpringHover,
        cancelSpringHover, hgi, hio]
    have h2 : dragStep (⟨some p, some p, true, some p, []⟩ : DragState)
        (DragEvent.timerElapsed env') = (⟨some p, some p, true, none, [p]⟩,
          [p]) := by
      simp [dragStep, fireSpringTimer, hio']
    have hinv2 : springInv p (⟨some p, some p, true, none, [p]⟩ : DragState) :=
      by
      intro _ hcontra
      simp at hcontra
    obtain ⟨hb, -⟩ := spring_run_bound p rest
      (⟨some p, some p, true, none, [p]⟩ : DragState) hcf hinv2
    have hzero : springBudget p
        (⟨some p, some p, true, none, [p]⟩ : DragState) = 0 := by
      simp [springBudget]
    rw [hzero] at hb
    have hcnt0 : (dragRun (⟨some p, some p, true, none, [p]⟩ : DragState)
        rest).2.count p = 0 := by omega
    have hrun : dragRun initDragState (DragEvent.dragOver env (some p) ::
        DragEvent.timerElapsed env' :: rest) =
        ((dragRun (⟨some p, some p, true, none, [p]⟩ : DragState) rest).1,
          [] ++ ([p] ++ (dragRun (⟨some p, some p, true, none, [p]⟩ :
            DragState) rest).2)) := by
      simp only [dragRun, h1, h2]
    rw [hrun]
    simp [List.count_append, hcnt0]

/-- Witness for `spring_load_once` at a concrete path, environment and (empty)
session remainder. -/
theorem spring_load_once_witness :
    cleanupFree [] ∧
      (dragRun initDragState
        (DragEvent.dragOver
            ⟨fun _ => some EntryType.directory, fun _ => false⟩ (some ['d']) ::
          DragEvent.timerElapsed
            ⟨fun _ => some EntryType.directory, fun _ => false⟩ ::
          [])).2.count ['d'] = 1 :=
  ⟨fun e he => absurd he (List.not_mem_nil e),
    (spring_load_once ['d']).2
      ⟨fun _ => some EntryType.directory, fun _ => false⟩
      ⟨fun _ => some EntryType.directory, fun _ => false⟩ [] rfl rfl rfl
      (fun e he => absurd he (List.not_mem_nil e))⟩

end Unfold

namespace Unfold

theorem forestPaths_file (pp nm : JStr) (rest : List FsNode) :
    forestPaths pp (FsNode.file nm :: rest) =
      childPath pp nm :: forestPaths pp rest := by
  simp [forestPaths]

theorem forestPaths_dir (pp nm : JStr) (cs rest : List FsNode) :
    forestPaths pp (FsNode.dir nm cs :: rest) =
      childPath pp nm ::
        (forestPaths (childPath pp nm) cs ++ forestPaths pp rest) := by
  simp [forestPaths]

theorem forestPaths_eq_flatMap (pp : JStr) (ns : List FsNode) :
    forestPaths pp ns = ns.flatMap (fun n => forestPaths pp [n]) := by
  induction ns with
  | nil => simp [forestPaths]
  | cons n rest ih =>
    cases n with
    | file nm =>
      rw [forestPaths_file, List.flatMap_cons, ← ih, forestPaths_file]
      simp [forestPaths]
    | dir nm cs =>
      rw [forestPaths_dir, List.flatMap_cons, ← ih, forestPaths_dir]
      simp [forestPaths]

theorem forestPaths_perm (pp : JStr) {l₁ l₂ : List FsNode} (h : l₁.Perm l₂) :
    (forestPaths pp l₁).Perm (forestPaths pp l₂) := by
  rw [forestPaths_eq_flatMap, forestPaths_eq_flatMap]
  exact h.flatMap_right _

theorem mem_forestPaths_sortNodes (pp : JStr) (ns : List FsNode) (q : JStr) :
    q ∈ forestPaths pp (sortNodes ns) ↔ q ∈ forestPaths pp ns :=
  (forestPaths_perm pp (sortNodes_perm ns)).mem_iff

theorem validName_ne_nil {nm : JStr} (h : validName nm = true) : nm ≠ [] := by
  simp only [validName, Bool.and_eq_true, decide_eq_true_eq] at h
  exact h.1

theorem validName_no_slash {nm : JStr} (h : validName nm = true) :
    '/' ∉ nm := by
  simp only [validName, Bool.and_eq_true, decide_eq_true_eq] at h
  exact h.2

theorem childPath_ne_nil (pp nm : JStr) (h : nm ≠ []) :
    childPath pp nm ≠ [] := by
  unfold childPath
  split_ifs
  · exact h
  · simp

theorem childPath_length (pp nm : JStr) (h : nm ≠ []) :
    pp.length < (childPath pp nm).length := by
  have hlen : 0 < nm.length := List.length_pos.mpr h
  unfold childPath
  split_ifs with hpp
  · rw [hpp]
    simpa using hlen
  · simp only [List.length_append, List.length_cons]
    omega

theorem wfEach_cons_file {nm : JStr} {rest : List FsNode}
    (h : wfEach (FsNode.file nm :: rest) = true) :
    validName nm = true ∧ wfEach rest = true := by
  have he : wfEach (FsNode.file nm :: rest) =
      (validName nm && wfEach rest) := by
    simp [wfEach]
  rw [he] at h
  simpa [Bool.and_eq_true] using h

theorem wfEach_cons_dir {nm : JStr} {cs rest : List FsNode}
    (h : wfEach (FsNode.dir nm cs :: rest) = true) :
    validName nm = true ∧ namesNodup cs = true ∧ wfEach cs = true ∧
      wfEach rest = true := by
  have he : wfEach (FsNode.dir nm cs :: rest) =
      (validName nm && namesNodup cs && wfEach cs && wfEach rest) := by
    simp [wfEach]
  rw [he] at h
  simpa [Bool.and_eq_true, and_assoc] using h

theorem forest_strong_induction (motive : List FsNode → Prop)
    (ih : ∀ ns, (∀ ms, sizeForest ms < sizeForest ns → motive ms) →
      motive ns) :
    ∀ ns, motive ns := by
  have H : ∀ (k : ℕ) (ns : List FsNode), sizeForest ns ≤ k → motive ns := by
    intro k
    induction k with
    | zero =>
      intro ns hns
      exact ih ns (fun ms hms => (Nat.not_lt_zero _
        (lt_of_lt_of_le hms hns)).elim)
    | succ k ihk =>
      intro ns hns
      exact ih ns (fun ms hms => ihk ms (by omega))
  exact fun ns => H (sizeForest ns) ns le_rfl

theorem sizeForest_rest_lt_file (nm : JStr) (rest : List FsNode) :
    sizeForest rest < sizeForest (FsNode.file nm :: rest) := by
  simp only [sizeForest]
  omega

theorem sizeForest_rest_lt_dir (nm : JStr) (cs rest : List FsNode) :
    sizeForest rest < sizeForest (FsNode.dir nm cs :: rest) := by
  simp only [sizeForest]
  omega

theorem sizeForest_children_lt_dir (nm : JStr) (cs rest : List FsNode) :
    sizeForest cs < sizeForest (FsNode.dir nm cs :: rest) := by
  simp only [sizeForest]
  omega

theorem sizeForest_sorted_children_lt_dir (nm : JStr) (cs rest : List FsNode) :
    sizeForest (sortNodes cs) < sizeForest (FsNode.dir nm cs :: rest) := by
  rw [sizeForest_sortNodes]
  exact sizeForest_children_lt_dir nm cs rest

theorem length_lt_of_mem_forestPaths (nodes : List FsNode) :
    ∀ (pp q : JStr), wfEach nodes = true → q ∈ forestPaths pp nodes →
      pp.length < q.length := by
  induction nodes using forest_strong_induction with
  | ih ns IH =>
  intro pp q hwf hq
  cases ns with
  | nil => simp [forestPaths] at hq
  | cons n rest =>
    cases n with
    | file nm =>
      obtain ⟨hv, hwr⟩ := wfEach_cons_file hwf
      rw [forestPaths_file] at hq
      rcases List.mem_cons.mp hq with rfl | hq2
      · exact childPath_length pp nm (validName_ne_nil hv)
      · exact IH rest (sizeForest_rest_lt_file nm rest) pp q hwr hq2
    | dir nm cs =>
      obtain ⟨hv, hnn, hwc, hwr⟩ := wfEach_cons_dir hwf
      rw [forestPaths_dir] at hq
      rcases List.mem_cons.mp hq with rfl | hq2
      · exact childPath_length pp nm (validName_ne_nil hv)
      · rcases List.mem_append.mp hq2 with hsub | hrest
        · have hstep := childPath_length pp nm (validName_ne_nil hv)
          have hrec := IH cs (sizeForest_children_lt_dir nm cs rest)
            (childPath pp nm) q hwc hsub
          omega
        · exact IH rest (sizeForest_rest_lt_dir nm cs rest) pp q hwr hrest

theorem extend_of_mem_forestPaths (nodes : List FsNode) :
    ∀ (pp q : JStr), pp ≠ [] → q ∈ forestPaths pp nodes →
      ∃ t, q = pp ++ '/' :: t := by
  induction nodes using forest_strong_induction with
  | ih ns IH =>
  intro pp q hpp hq
  cases ns with
  | nil => simp [forestPaths] at hq
  | cons n rest =>
    cases n with
    | file nm =>
      rw [forestPaths_file] at hq
      rcases List.mem_cons.mp hq with rfl | hq2
      · exact ⟨nm, by simp [childPath, hpp]⟩
      · exact IH rest (sizeForest_rest_lt_file nm rest) pp q hpp hq2
    | dir nm cs =>
      rw [forestPaths_dir] at hq
      rcases List.mem_cons.mp hq with rfl | hq2
      · exact ⟨nm, by simp [childPath, hpp]⟩
      · rcases List.mem_append.mp hq2 with hsub | hrest
        · have hcne : childPath pp nm ≠ [] := by
            unfold childPath
            split_ifs with h0
            · exact absurd h0 hpp
            · simp
          obtain ⟨t, ht⟩ := IH cs (sizeForest_children_lt_dir nm cs rest)
            (childPath pp nm) q hcne hsub
          refine ⟨nm ++ '/' :: t, ?_⟩
          rw [ht]
          simp [childPath, hpp]
        · exact IH rest (sizeForest_rest_lt_dir nm cs rest) pp q hpp hrest

theorem shape_of_mem_forestPaths (nodes : List FsNode) :
    ∀ (pp q : JStr), wfEach nodes = true → q ∈ forestPaths pp nodes →
      ∃ n ∈ nodes, q = childPath pp n.name ∨
        ∃ t, q = childPath pp n.name ++ '/' :: t := by
  induction nodes using forest_strong_induction with
  | ih ns IH =>
  intro pp q hwf hq
  cases ns with
  | nil => simp [forestPaths] at hq
  | cons n rest =>
    cases n with
    | file nm =>
      obtain ⟨hv, hwr⟩ := wfEach_cons_file hwf
      rw [forestPaths_file] at hq
      rcases List.mem_cons.mp hq with rfl | hq2
      · exact ⟨FsNode.file nm, by simp, Or.inl rfl⟩
      · obtain ⟨m, hm, hform⟩ :=
          IH rest (sizeForest_rest_lt_file nm rest) pp q hwr hq2
        exact ⟨m, by simp [hm], hform⟩
    | dir nm cs =>
      obtain ⟨hv, hnn, hwc, hwr⟩ := wfEach_cons_dir hwf
      rw [forestPaths_dir] at hq
      rcases List.mem_cons.mp hq with rfl | hq2
      · exact ⟨FsNode.dir nm cs, by simp, Or.inl rfl⟩
      · rcases List.mem_append.mp hq2 with hsub | hrest
        · obtain ⟨t, ht⟩ := extend_of_mem_forestPaths cs (childPath pp nm) q
            (childPath_ne_nil pp nm (validName_ne_nil hv)) hsub
          exact ⟨FsNode.dir nm cs, by simp, Or.inr ⟨t, ht⟩⟩
        · obtain ⟨m, hm, hform⟩ :=
            IH rest (sizeForest_rest_lt_dir nm cs rest) pp q hwr hrest
          exact ⟨m, by simp [hm], hform⟩

end Unfold

namespace Unfold

theorem segment_append_inj (nm₁ : JStr) :
    ∀ (nm₂ s₁ s₂ : JStr), '/' ∉ nm₁ → '/' ∉ nm₂ →
      (s₁ = [] ∨ ∃ t, s₁ = '/' :: t) → (s₂ = [] ∨ ∃ t, s₂ = '/' :: t) →
      nm₁ ++ s₁ = nm₂ ++ s₂ → nm₁ = nm₂ ∧ s₁ = s₂ := by
  induction nm₁ with
  | nil =>
    intro nm₂ s₁ s₂ h1 h2 hs1 hs2 heq
    cases nm₂ with
    | nil => exact ⟨rfl, heq⟩
    | cons b bs =>
      simp only [List.nil_append, List.cons_append] at heq
      rcases hs1 with rfl | ⟨t, rfl⟩
      · simp at heq
      · have hb : b = '/' := (List.cons.inj heq.symm).1
        exact absurd (by simp [hb]) h2
  | cons a as ihn =>
    intro nm₂ s₁ s₂ h1 h2 hs1 hs2 heq
    cases nm₂ with
    | nil =>
      simp only [List.cons_append, List.nil_append] at heq
      rcases hs2 with rfl | ⟨t, rfl⟩
      · simp at heq
      · have ha : a = '/' := (List.cons.inj heq).1
        exact absurd (by simp [ha]) h1
    | cons b bs =>
      simp only [List.cons_append] at heq
      injection heq with hab htail
      subst hab
      have h1' : '/' ∉ as := fun hm => h1 (by simp [hm])
      have h2' : '/' ∉ bs := fun hm => h2 (by simp [hm])
      obtain ⟨he, hs⟩ := ihn bs s₁ s₂ h1' h2' hs1 hs2 htail
      exact ⟨by rw [he], hs⟩

theorem childPath_split (pp nm : JStr) :
    childPath pp nm = (if pp = [] then [] else pp ++ ['/']) ++ nm := by
  unfold childPath
  split_ifs <;> simp

theorem sibling_paths_disjoint (pp nm₁ nm₂ q : JStr)
    (hv₁ : validName nm₁ = true) (hv₂ : validName nm₂ = true)
    (hne : nm₁ ≠ nm₂)
    (hq₁ : q = childPath pp nm₁ ∨ ∃ t, q = childPath pp nm₁ ++ '/' :: t)
    (hq₂ : q = childPath pp nm₂ ∨ ∃ t, q = childPath pp nm₂ ++ '/' :: t) :
    False := by
  have hs₁ : ∃ s₁, ((s₁ = [] ∨ ∃ t, s₁ = '/' :: t) ∧
      q = (if pp = [] then ([] : JStr) else pp ++ ['/']) ++ (nm₁ ++ s₁)) := by
    rcases hq₁ with rfl | ⟨t, rfl⟩
    · exact ⟨[], Or.inl rfl, by rw [childPath_split]; simp⟩
    · exact ⟨'/' :: t, Or.inr ⟨t, rfl⟩, by rw [childPath_split]; simp⟩
  have hs₂ : ∃ s₂, ((s₂ = [] ∨ ∃ t, s₂ = '/' :: t) ∧
      q = (if pp = [] then ([] : JStr) else pp ++ ['/']) ++ (nm₂ ++ s₂)) := by
    rcases hq₂ with rfl | ⟨t, rfl⟩
    · exact ⟨[], Or.inl rfl, by rw [childPath_split]; simp⟩
    · exact ⟨'/' :: t, Or.inr ⟨t, rfl⟩, by rw [childPath_split]; simp⟩
  obtain ⟨s₁, hf₁, he₁⟩ := hs₁
  obtain ⟨s₂, hf₂, he₂⟩ := hs₂
  have heq : nm₁ ++ s₁ = nm₂ ++ s₂ :=
    List.append_cancel_left (he₁ ▸ he₂)
  obtain ⟨hcontra, -⟩ := segment_append_inj nm₁ nm₂ s₁ s₂
    (validName_no_slash hv₁) (validName_no_slash hv₂) hf₁ hf₂ heq
  exact hne hcontra

theorem wfEach_valid_names (nodes : List FsNode) (hwf : wfEach nodes = true) :
    ∀ n ∈ nodes, validName n.name = true := by
  induction nodes with
  | nil => intro n hn; simp at hn
  | cons m rest ih =>
    intro n hn
    rcases List.mem_cons.mp hn with rfl | hn'
    · cases n with
      | file nm => exact (wfEach_cons_file hwf).1
      | dir nm cs => exact (wfEach_cons_dir hwf).1
    · cases m with
      | file nm => exact ih (wfEach_cons_file hwf).2 n hn'
      | dir nm cs => exact ih (wfEach_cons_dir hwf).2.2.2 n hn'

theorem namesNodup_cons {n : FsNode} {rest : List FsNode}
    (h : namesNodup (n :: rest) = true) :
    n.name ∉ rest.map FsNode.name ∧ namesNodup rest = true := by
  simp only [namesNodup, decide_eq_true_eq, List.map_cons] at h
  obtain ⟨h1, h2⟩ := List.nodup_cons.mp h
  exact ⟨h1, by simpa [namesNodup] using h2⟩

theorem head_forms_of_node (pp : JStr) (n : FsNode) (q : JStr)
    (hv : validName n.name = true)
    (hq : q ∈ forestPaths pp [n]) :
    q = childPath pp n.name ∨ ∃ t, q = childPath pp n.name ++ '/' :: t := by
  cases n with
  | file nm =>
    rw [forestPaths_file] at hq
    rcases List.mem_cons.mp hq with rfl | hq'
    · exact Or.inl rfl
    · simp [forestPaths] at hq'
  | dir nm cs =>
    rw [forestPaths_dir] at hq
    rcases List.mem_cons.mp hq with rfl | hq'
    · exact Or.inl rfl
    · rcases List.mem_append.mp hq' with hsub | hrest
      · exact Or.inr (extend_of_mem_forestPaths cs (childPath pp nm) q
          (childPath_ne_nil pp nm (validName_ne_nil hv)) hsub)
      · simp [forestPaths] at hrest

theorem forestPaths_nodup (nodes : List FsNode) :
    ∀ (pp : JStr), namesNodup nodes = true → wfEach nodes = true →
      (forestPaths pp nodes).Nodup := by
  induction nodes using forest_strong_induction with
  | ih ns IH =>
  intro pp hnn hwf
  cases ns with
  | nil => simp [forestPaths]
  | cons n rest =>
    obtain ⟨hname, hnnr⟩ := namesNodup_cons hnn
    have hvn : validName n.name = true :=
      wfEach_valid_names (n :: rest) hwf n (by simp)
    have hwfr : wfEach rest = true := by
      cases n with
      | file nm => exact (wfEach_cons_file hwf).2
      | dir nm cs => exact (wfEach_cons_dir hwf).2.2.2
    have hndrest : (forestPaths pp rest).Nodup :=
      IH rest (by
        cases n with
        | file nm => exact sizeForest_rest_lt_file nm rest
        | dir nm cs => exact sizeForest_rest_lt_dir nm cs rest) pp hnnr hwfr
    have hdisj : ∀ q ∈ forestPaths pp [n], q ∉ forestPaths pp rest := by
      intro q hql hqr
      obtain ⟨m, hm, hform⟩ := shape_of_mem_forestPaths rest pp q hwfr hqr
      have hvm : validName m.name = true := wfEach_valid_names rest hwfr m hm
      have hmn : n.name ≠ m.name := by
        intro he
        exact hname (he ▸ List.mem_map_of_mem FsNode.name hm)
      exact sibling_paths_disjoint pp n.name m.name q hvn hvm hmn
        (head_forms_of_node pp n q hvn hql) hform
    cases n with
    | file nm =>
      rw [forestPaths_file]
      refine List.nodup_cons.mpr ⟨?_, hndrest⟩
      exact hdisj (childPath pp nm) (by rw [forestPaths_file]; simp)
    | dir nm cs =>
      obtain ⟨hv, hnnc, hwc, hwr⟩ := wfEach_cons_dir hwf
      rw [forestPaths_dir]
      have hndsub : (forestPaths (childPath pp nm) cs).Nodup :=
        IH cs (sizeForest_children_lt_dir nm cs rest) (childPath pp nm)
          hnnc hwc
      have hcnot : childPath pp nm ∉
          forestPaths (childPath pp nm) cs ++ forestPaths pp rest := by
        intro hmem
        rcases List.mem_append.mp hmem with hsub | hrest
        · have := length_lt_of_mem_forestPaths cs (childPath pp nm)
            (childPath pp nm) hwc hsub
          omega
        · exact hdisj (childPath pp nm)
            (by rw [forestPaths_dir]; simp) hrest
      refine List.nodup_cons.mpr ⟨hcnot, ?_⟩
      refine List.Nodup.append hndsub hndrest ?_
      intro q hqs hqr
      exact hdisj q (by rw [forestPaths_dir]; simp [hqs]) hqr

end Unfold

namespace Unfold

theorem osGet_foldl_reconStep_not_path (exp : List JStr) (items : List Entry)
    (st : OpenStateMap) (q : JStr) (h : q ∉ items.map Entry.path) :
    osGet (items.foldl (reconStep exp) st) q = osGet st q := by
  have hfk : q ∉ reconFalseKeys exp items := by
    intro hq
    unfold reconFalseKeys at hq
    obtain ⟨e, he, rfl⟩ := List.mem_map.mp hq
    exact h (List.mem_map_of_mem Entry.path (List.mem_of_mem_filter he))
  unfold osGet
  rw [osLookup_foldl_reconStep exp items st q, if_neg hfk]

theorem entryOf_path (pp : JStr) (n : FsNode) :
    (entryOf pp n).path = childPath pp n.name := rfl

theorem serverListing_nil (exp : List JStr) (pp : JStr) :
    serverListing exp pp [] = [] := by
  simp [serverListing]

theorem serverListing_file (exp : List JStr) (pp nm : JStr)
    (rest : List FsNode) :
    serverListing exp pp (FsNode.file nm :: rest) =
      entryOf pp (FsNode.file nm) :: serverListing exp pp rest := by
  simp [serverListing]

theorem serverListing_dir_open (exp : List JStr) (pp nm : JStr)
    (cs rest : List FsNode) (h : childPath pp nm ∈ exp) :
    serverListing exp pp (FsNode.dir nm cs :: rest) =
      entryOf pp (FsNode.dir nm cs) ::
        (serverListing exp (childPath pp nm) (sortNodes cs) ++
          serverListing exp pp rest) := by
  simp only [serverListing]
  rw [if_pos (by simpa [entryOf, FsNode.name] using h)]
  rfl

theorem serverListing_dir_closed (exp : List JStr) (pp nm : JStr)
    (cs rest : List FsNode) (h : childPath pp nm ∉ exp) :
    serverListing exp pp (FsNode.dir nm cs :: rest) =
      entryOf pp (FsNode.dir nm cs) :: serverListing exp pp rest := by
  simp only [serverListing]
  rw [if_neg (by simpa [entryOf, FsNode.name] using h)]

theorem fallbackChildren_nil (ptu : Option JStr) (pp : JStr)
    (os : OpenStateMap) : fallbackChildren ptu pp [] os = ([], os) := by
  simp [fallbackChildren]

theorem fallbackChildren_file (ptu : Option JStr) (pp nm : JStr)
    (rest : List FsNode) (os : OpenStateMap) :
    fallbackChildren ptu pp (FsNode.file nm :: rest) os =
      (entryOf pp (FsNode.file nm) ::
        (fallbackChildren ptu pp rest os).1,
        (fallbackChildren ptu pp rest os).2) := by
  simp [fallbackChildren]

theorem fallbackChildren_dir_open (ptu : Option JStr) (pp nm : JStr)
    (cs rest : List FsNode) (os : OpenStateMap)
    (h : shouldDirectoryBeOpen os (childPath pp nm) ptu = true) :
    fallbackChildren ptu pp (FsNode.dir nm cs :: rest) os =
      (entryOf pp (FsNode.dir nm cs) ::
        ((fallbackChildren ptu (childPath pp nm) (sortNodes cs)
            (osSet os (childPath pp nm) true)).1 ++
          (fallbackChildren ptu pp rest
            (fallbackChildren ptu (childPath pp nm) (sortNodes cs)
              (osSet os (childPath pp nm) true)).2).1),
        (fallbackChildren ptu pp rest
          (fallbackChildren ptu (childPath pp nm) (sortNodes cs)
            (osSet os (childPath pp nm) true)).2).2) := by
  rw [fallbackChildren]
  simp only [entryOf_path]
  rw [if_pos (by simpa [entryOf, FsNode.name] using h)]
  rfl

theorem fallbackChildren_dir_closed (ptu : Option JStr) (pp nm : JStr)
    (cs rest : List FsNode) (os : OpenStateMap)
    (h : ¬ shouldDirectoryBeOpen os (childPath pp nm) ptu = true) :
    fallbackChildren ptu pp (FsNode.dir nm cs :: rest) os =
      (entryOf pp (FsNode.dir nm cs) ::
        (fallbackChildren ptu pp rest
          (osSet os (childPath pp nm) false)).1,
        (fallbackChildren ptu pp rest
          (osSet os (childPath pp nm) false)).2) := by
  rw [fallbackChildren]
  simp only [entryOf_path]
  rw [if_neg (by simpa [entryOf, FsNode.name] using h)]
  rfl

theorem serverListing_path_mem (exp : List JStr) (nodes : List FsNode) :
    ∀ (pp q : JStr), q ∈ (serverListing exp pp nodes).map Entry.path →
      q ∈ forestPaths pp nodes := by
  induction nodes using forest_strong_induction with
  | ih ns IH =>
  intro pp q hq
  cases ns with
  | nil => simp [serverListing_nil] at hq
  | cons n rest =>
    cases n with
    | file nm =>
      rw [serverListing_file, List.map_cons] at hq
      rw [forestPaths_file]
      rcases List.mem_cons.mp hq with rfl | hq'
      · exact List.mem_cons_self _ _
      · exact List.mem_cons_of_mem _
          (IH rest (sizeForest_rest_lt_file nm rest) pp q hq')
    | dir nm cs =>
      rw [forestPaths_dir]
      by_cases hmem : childPath pp nm ∈ exp
      · rw [serverListing_dir_open exp pp nm cs rest hmem, List.map_cons,
          List.map_append] at hq
        rcases List.mem_cons.mp hq with rfl | hq'
        · exact List.mem_cons_self _ _
        · rcases List.mem_append.mp hq' with hsub | hrest
          · refine List.mem_cons_of_mem _ (List.mem_append_left _ ?_)
            exact (mem_forestPaths_sortNodes (childPath pp nm) cs q).mp
              (IH (sortNodes cs) (sizeForest_sorted_children_lt_dir nm cs rest)
                (childPath pp nm) q hsub)
          · exact List.mem_cons_of_mem _ (List.mem_append_right _
              (IH rest (sizeForest_rest_lt_dir nm cs rest) pp q hrest))
      · rw [serverListing_dir_closed exp pp nm cs rest hmem,
          List.map_cons] at hq
        rcases List.mem_cons.mp hq with rfl | hq'
        · exact List.mem_cons_self _ _
        · exact List.mem_cons_of_mem _ (List.mem_append_right _
            (IH rest (sizeForest_rest_lt_dir nm cs rest) pp q hq'))

end Unfold

namespace Unfold

theorem fallback_eq_server (os0 : OpenStateMap) (expanded : List JStr)
    (nodes : List FsNode) :
    ∀ (pp : JStr) (os : OpenStateMap),
      (∀ q ∈ forestPaths pp nodes, osGet os q = osGet os0 q) →
      (∀ q ∈ forestPaths pp nodes, (q ∈ expanded ↔ osGet os0 q = true)) →
      (forestPaths pp nodes).Nodup →
      fallbackChildren none pp nodes os =
        (serverListing expanded pp nodes,
          (serverListing expanded pp nodes).foldl (reconStep expanded) os) := by
  induction nodes using forest_strong_induction with
  | ih ns IH =>
  intro pp os hagr hexp hnd
  cases ns with
  | nil => simp [fallbackChildren_nil, serverListing_nil]
  | cons n rest =>
    cases n with
    | file nm =>
      rw [forestPaths_file] at hagr hexp hnd
      have hrec := IH rest (sizeForest_rest_lt_file nm rest) pp os
        (fun q hq => hagr q (List.mem_cons_of_mem _ hq))
        (fun q hq => hexp q (List.mem_cons_of_mem _ hq))
        (List.nodup_cons.mp hnd).2
      rw [fallbackChildren_file, serverListing_file, hrec]
      have hstep : reconStep expanded os (entryOf pp (FsNode.file nm)) = os :=
        by
        unfold reconStep
        rw [if_neg]
        rintro ⟨htype, -⟩
        simp [entryOf, FsNode.entryType] at htype
      rw [List.foldl_cons, hstep]
    | dir nm cs =>
      rw [forestPaths_dir] at hagr hexp hnd
      have hcmem : childPath pp nm ∈ childPath pp nm ::
          (forestPaths (childPath pp nm) cs ++ forestPaths pp rest) := by
        simp
      have hagrc := hagr _ hcmem
      have hexpc := hexp _ hcmem
      have hnd' := List.nodup_cons.mp hnd
      have hcnot := hnd'.1
      obtain ⟨hndsub, hndrest, hdisj⟩ := List.nodup_append.mp hnd'.2
      have hshould : shouldDirectoryBeOpen os (childPath pp nm) none =
          osGet os (childPath pp nm) := by
        simp [shouldDirectoryBeOpen]
      by_cases hopen : osGet os0 (childPath pp nm) = true
      · have hosc : osGet os (childPath pp nm) = true := by
          rw [hagrc]; exact hopen
        have hsd : shouldDirectoryBeOpen os (childPath pp nm) none = true := by
          rw [hshould]; exact hosc
        have hosset : osSet os (childPath pp nm) true = os :=
          osSet_true_of_osGet_true os _ hosc
        have hexpmem : childPath pp nm ∈ expanded := hexpc.mpr hopen
        rw [fallbackChildren_dir_open none pp nm cs rest os hsd,
          serverListing_dir_open expanded pp nm cs rest hexpmem, hosset]
        have hsubrec := IH (sortNodes cs)
          (sizeForest_sorted_children_lt_dir nm cs rest) (childPath pp nm) os
          (fun q hq => hagr q (by
            simp only [List.mem_cons]
            exact Or.inr (List.mem_append_left _
              ((mem_forestPaths_sortNodes _ cs q).mp hq))))
          (fun q hq => hexp q (by
            simp only [List.mem_cons]
            exact Or.inr (List.mem_append_left _
              ((mem_forestPaths_sortNodes _ cs q).mp hq))))
          ((forestPaths_perm _ (sortNodes_perm cs)).nodup_iff.mpr hndsub)
        rw [hsubrec]
        dsimp only
        have hos2 : ∀ q ∈ forestPaths pp rest,
            osGet ((serverListing expanded (childPath pp nm)
              (sortNodes cs)).foldl (reconStep expanded) os) q =
              osGet os0 q := by
          intro q hq
          have hnotin : q ∉ (serverListing expanded (childPath pp nm)
              (sortNodes cs)).map Entry.path := by
            intro hin
            have hqsub := (mem_forestPaths_sortNodes _ cs q).mp
              (serverListing_path_mem expanded (sortNodes cs)
                (childPath pp nm) q hin)
            exact hdisj hqsub hq
          rw [osGet_foldl_reconStep_not_path _ _ _ _ hnotin]
          exact hagr q (by
            simp only [List.mem_cons]
            exact Or.inr (List.mem_append_right _ hq))
        have hrestrec := IH rest (sizeForest_rest_lt_dir nm cs rest) pp
          ((serverListing expanded (childPath pp nm)
            (sortNodes cs)).foldl (reconStep expanded) os)
          hos2
          (fun q hq => hexp q (by
            simp only [List.mem_cons]
            exact Or.inr (List.mem_append_right _ hq)))
          hndrest
        rw [hrestrec]
        dsimp only
        have hstepe : reconStep expanded os (entryOf pp (FsNode.dir nm cs)) =
            os := by
          unfold reconStep
          rw [if_neg]
          rintro ⟨-, hno⟩
          exact hno hexpmem
        rw [List.foldl_cons, hstepe, List.foldl_append]
      · have hopen' : osGet os0 (childPath pp nm) = false := by
          revert hopen
          cases osGet os0 (childPath pp nm) <;> simp
        have hsd : ¬ shouldDirectoryBeOpen os (childPath pp nm) none = true :=
          by
          rw [hshould, hagrc, hopen']
          simp
        have hexpnot : childPath pp nm ∉ expanded := fun hm =>
          hopen (hexpc.mp hm)
        rw [fallbackChildren_dir_closed none pp nm cs rest os hsd,
          serverListing_dir_closed expanded pp nm cs rest hexpnot]
        have hos1 : ∀ q ∈ forestPaths pp rest,
            osGet (osSet os (childPath pp nm) false) q = osGet os0 q := by
          intro q hq
          have hqne : childPath pp nm ≠ q := by
            intro he
            exact hcnot (he ▸ List.mem_append_right _ hq)
          rw [osGet_osSet_ne os _ q false hqne]
          exact hagr q (by
            simp only [List.mem_cons]
            exact Or.inr (List.mem_append_right _ hq))
        have hrestrec := IH rest (sizeForest_rest_lt_dir nm cs rest) pp
          (osSet os (childPath pp nm) false) hos1
          (fun q hq => hexp q (by
            simp only [List.mem_cons]
            exact Or.inr (List.mem_append_right _ hq)))
          hndrest
        rw [hrestrec]
        dsimp only
        have hstepe : reconStep expanded os (entryOf pp (FsNode.dir nm cs)) =
            osSet os (childPath pp nm) false := by
          unfold reconStep
          rw [if_pos ⟨rfl, hexpnot⟩]
          rfl
        rw [List.foldl_cons, hstepe]

end Unfold

namespace Unfold

theorem mem_buildExpandedPaths_none (os : OpenStateMap) (root q : JStr)
    (hnd : (os.map Prod.fst).Nodup) :
    q ∈ buildExpandedPaths os root none ↔
      (q = root ∨ osGet os q = true) ∧ q ≠ [] := by
  rw [mem_buildExpandedPaths_iff os root none q hnd
    (fun np h => by simp [normalizePath] at h)]
  unfold specExpandedMem
  simp [normalizePath]

theorem fetch_models_agree (tree : List FsNode) (root : JStr)
    (os0 : OpenStateMap) (hwf : wfForest tree = true)
    (hnd : (os0.map Prod.fst).Nodup) :
    fetchViaContentsModel tree root none os0 =
      fetchViaServerModel tree root none os0 := by
  obtain ⟨hnn, hwe⟩ : namesNodup tree = true ∧ wfEach tree = true := by
    simpa [wfForest, Bool.and_eq_true] using hwf
  have hfacts : ∀ q ∈ forestPaths root (sortNodes tree),
      root.length < q.length := by
    intro q hq
    exact length_lt_of_mem_forestPaths tree root q hwe
      ((mem_forestPaths_sortNodes root tree q).mp hq)
  have hagr : ∀ q ∈ forestPaths root (sortNodes tree),
      osGet (osSet os0 root true) q = osGet os0 q := by
    intro q hq
    have hne : root ≠ q := by
      intro he
      have := hfacts q hq
      rw [he] at this
      omega
    exact osGet_osSet_ne os0 root q true hne
  have hexp : ∀ q ∈ forestPaths root (sortNodes tree),
      (q ∈ buildExpandedPaths os0 root none ↔ osGet os0 q = true) := by
    intro q hq
    have hlen := hfacts q hq
    have hqroot : q ≠ root := by
      intro he
      rw [he] at hlen
      omega
    have hqnil : q ≠ [] := by
      intro he
      rw [he] at hlen
      simp at hlen
    rw [mem_buildExpandedPaths_none os0 root q hnd]
    constructor
    · rintro ⟨hq1 | hq1, -⟩
      · exact absurd hq1 hqroot
      · exact hq1
    · intro hq1
      exact ⟨Or.inr hq1, hqnil⟩
  have hndp : (forestPaths root (sortNodes tree)).Nodup :=
    (forestPaths_perm root (sortNodes_perm tree)).nodup_iff.mpr
      (forestPaths_nodup tree root hnn hwe)
  have hmain := fallback_eq_server os0 (buildExpandedPaths os0 root none)
    (sortNodes tree) root (osSet os0 root true) hagr hexp hndp
  unfold fetchViaContentsModel fetchViaServerModel
  rw [hmain]
  rfl

/-- Claim C1 (amended): for every well-formed tree fixture (non-empty,
slash-free names, distinct sibling names) and every initial `OpenStateMap`
(a JavaScript object, so with pairwise-distinct keys), **with no
`pathToReveal`** the server strategy — `fetchViaServer` run against the
canonical flattened depth-first pre-order server listing for the computed
expanded-path set — and the fallback strategy `fetchViaContents` return item
lists equal as ordered sequences of `(path, type)` and leave the
`OpenStateMap` in an identical final state. -/
theorem fetch_strategies_equiv_no_reveal (tree : List FsNode) (root : JStr)
    (os0 : OpenStateMap) (hwf : wfForest tree = true)
    (hnd : (os0.map Prod.fst).Nodup) :
    ((fetchViaContentsModel tree root none os0).1.map
        (fun e => (e.path, e.type)) =
      (fetchViaServerModel tree root none os0).1.map
        (fun e => (e.path, e.type))) ∧
    (fetchViaContentsModel tree root none os0).2 =
      (fetchViaServerModel tree root none os0).2 := by
  rw [fetch_models_agree tree root os0 hwf hnd]
  exact ⟨rfl, rfl⟩

end Unfold

namespace Unfold

/-- Claim C1 counterexample: with a `pathToReveal` the two strategies do
**not** leave the `OpenStateMap` in an identical final state.  On the fixture
tree `[dir "a" [file "f"]]` with root `""`, empty initial state and
`pathToReveal = "/a"`, the fallback strategy descends into `a` (because
`"/a".startsWith("/" + "a")`) and writes `openState["a"] = true` on entry,
while the server strategy's reconcile pass never writes `true` for a
non-root path: it leaves `"a"` absent, i.e. reading it yields `false`. -/
theorem fetch_strategies_reveal_divergence :
    osGet (fetchViaContentsModel [FsNode.dir ['a'] [FsNode.file ['f']]] []
        (some ['/', 'a']) []).2 ['a'] = true ∧
    osGet (fetchViaServerModel [FsNode.dir ['a'] [FsNode.file ['f']]] []
        (some ['/', 'a']) []).2 ['a'] = false ∧
    (fetchViaContentsModel [FsNode.dir ['a'] [FsNode.file ['f']]] []
        (some ['/', 'a']) []).2 ≠
      (fetchViaServerModel [FsNode.dir ['a'] [FsNode.file ['f']]] []
        (some ['/', 'a']) []).2 := by
  have hc : fetchViaContentsModel [FsNode.dir ['a'] [FsNode.file ['f']]] []
      (some ['/', 'a']) [] =
      ([⟨['a'], ['a'], EntryType.directory⟩,
        ⟨['a', '/', 'f'], ['f'], EntryType.file⟩],
        [([], true), (['a'], true)]) := by
    simp [fetchViaContentsModel, fallbackChildren, sortNodes,
      List.insertionSort, List.orderedInsert, FsNode.isDir,
      shouldDirectoryBeOpen, osGet, osLookup, osSet, entryOf, childPath,
      FsNode.name, FsNode.entryType, List.isPrefixOf]
  have hs : fetchViaServerModel [FsNode.dir ['a'] [FsNode.file ['f']]] []
      (some ['/', 'a']) [] =
      ([⟨['a'], ['a'], EntryType.directory⟩,
        ⟨['a', '/', 'f'], ['f'], EntryType.file⟩],
        [([], true)]) := by
    simp [fetchViaServerModel, serverListing, sortNodes,
      List.insertionSort, List.orderedInsert, FsNode.isDir,
      buildExpandedPaths, normalizePath, setAdd, setAddOpen, addRevealParts,
      reconcileOpenStateFromItems, reconStep, osGet, osLookup, osSet,
      entryOf, childPath, FsNode.name, FsNode.entryType, List.splitOn]
  rw [hc, hs]
  refine ⟨rfl, rfl, ?_⟩
  decide

end Unfold

namespace Unfold

theorem fetch_strategies_equiv_no_reveal_witness :
    wfForest [FsNode.dir ['a'] [FsNode.file ['f']]] = true ∧
    (([(['a'], true)] : OpenStateMap).map Prod.fst).Nodup ∧
    (((fetchViaContentsModel [FsNode.dir ['a'] [FsNode.file ['f']]] []
          none [(['a'], true)]).1.map (fun e => (e.path, e.type)) =
        (fetchViaServerModel [FsNode.dir ['a'] [FsNode.file ['f']]] []
          none [(['a'], true)]).1.map (fun e => (e.path, e.type))) ∧
      (fetchViaContentsModel [FsNode.dir ['a'] [FsNode.file ['f']]] []
          none [(['a'], true)]).2 =
        (fetchViaServerModel [FsNode.dir ['a'] [FsNode.file ['f']]] []
          none [(['a'], true)]).2) := by
  have hwf : wfForest [FsNode.dir ['a'] [FsNode.file ['f']]] = true := by
    simp [wfForest, namesNodup, wfEach, validName, FsNode.name]
  have hnd : (([(['a'], true)] : OpenStateMap).map Prod.fst).Nodup := by
    decide
  exact ⟨hwf, hnd,
    fetch_strategies_equiv_no_reveal [FsNode.dir ['a'] [FsNode.file ['f']]]
      [] [(['a'], true)] hwf hnd⟩

end Unfold
